import Mathlib

/-!
Verification of the `toodee` two-dimensional array library.

This file contains a shallow embedding, in Lean 4, of the parts of the
`toodee` Rust crate that the verified claims talk about: the owning
container `TooDee` (a flat row-major buffer plus `num_cols`/`num_rows`),
the view layer (`calculate_view_dimensions`, `TooDeeView::from_toodee`),
the row/column iterator kernel (`RowsMut`), the translate engine
(`translate_with_wrap`), the sort engine (`build_swap_trace`,
`sort_by_row`, `sort_by_col_key`) and column removal
(`remove_col` / `DrainCol::drop`).

Modelling conventions:
* `usize` is modelled as `Nat`; the places where the Rust code performs a
  checked multiplication (`checked_mul().unwrap()`) are modelled with an
  explicit bound `USIZE_MOD = 2 ^ 64`.
* A Rust function that can panic is modelled as an `Option`-valued
  function; `none` means the call panics.
* Mutable slices are modelled as `List` values; `ptr::copy` (memmove) is
  modelled by the splice function `ptrCopy`; a pair of
  `swap_with_slice` calls is modelled by list splices of the swapped
  segments.
* Rust's stable `slice::sort_by` is modelled by Mathlib's stable
  `List.insertionSort` (any stable comparison sort is an admissible model
  of the stable-sort contract, and `insertionSort` computes inside the
  kernel).
-/

/-- The number of values of the Rust `usize` type (64-bit platform). -/
def USIZE_MOD : Nat := 2 ^ 64

/-- Rust's `usize::checked_mul`: `none` models arithmetic overflow. -/
def checked_mul (a b : Nat) : Option Nat :=
  if a * b < USIZE_MOD then some (a * b) else none

/-- The owning container from `src/toodee.rs`:
a flat row-major buffer `data` plus the recorded dimensions. -/
structure TooDee (α : Type) where
  data : List α
  num_rows : Nat
  num_cols : Nat
deriving DecidableEq, Repr

/-- Invariant I1 of the spec: `cols == 0 ⇔ rows == 0`. -/
def TooDee.I1 {α : Type} (t : TooDee α) : Prop :=
  t.num_cols = 0 ↔ t.num_rows = 0

instance {α : Type} (t : TooDee α) : Decidable t.I1 := by
  unfold TooDee.I1; infer_instance

/-- `TooDee::new` from `src/toodee.rs` (lines 419-424).  The body performs
only `num_cols.checked_mul(num_rows).unwrap()` before building the value:
unlike `init` and `from_vec`, it contains no
`if num_cols == 0 || num_rows == 0 { assert_eq!(num_rows, num_cols) }`
guard, although its doc comment promises one. -/
def TooDee.new (α : Type) [Inhabited α] (num_cols num_rows : Nat) : Option (TooDee α) :=
  (checked_mul num_cols num_rows).map fun len =>
    { data := List.replicate len default, num_cols := num_cols, num_rows := num_rows }

/-- `TooDee::init` from `src/toodee.rs` (lines 445-457), including its
zero-dimension assertion. -/
def TooDee.init {α : Type} (num_cols num_rows : Nat) (init_value : α) : Option (TooDee α) :=
  if (num_cols = 0 ∨ num_rows = 0) ∧ num_rows ≠ num_cols then none
  else
    (checked_mul num_rows num_cols).map fun len =>
      { data := List.replicate len init_value, num_cols := num_cols, num_rows := num_rows }

/-- `TooDee::from_vec` from `src/toodee.rs` (lines 554-564), including its
zero-dimension assertion and the length equality assertion. -/
def TooDee.from_vec {α : Type} (num_cols num_rows : Nat) (v : List α) : Option (TooDee α) :=
  if (num_cols = 0 ∨ num_rows = 0) ∧ num_rows ≠ num_cols then none
  else match checked_mul num_cols num_rows with
    | none => none
    | some len =>
      if len = v.length then
        some { data := v, num_cols := num_cols, num_rows := num_rows }
      else none

/-- `calculate_view_dimensions` from `src/view.rs` (lines 12-25): the four
assertions are modelled by `none`, then the produced extents are zeroed
together when either is zero.  A Rust `Coordinate` is `(col, row)`, so
`.fst` is the column and `.snd` the row. -/
def calculate_view_dimensions (start end_ : Nat × Nat) (num_cols num_rows : Nat) :
    Option (Nat × Nat) :=
  if end_.fst < start.fst ∨ end_.snd < start.snd ∨
     num_cols < end_.fst ∨ num_rows < end_.snd then none
  else
    let nc := end_.fst - start.fst
    let nr := end_.snd - start.snd
    if nc = 0 ∨ nr = 0 then some (0, 0) else some (nc, nr)

/-- The read-only view from `src/view.rs`. -/
structure TooDeeView (α : Type) where
  data : List α
  num_cols : Nat
  num_rows : Nat
  main_cols : Nat
  start : Nat × Nat
deriving DecidableEq, Repr

/-- The mutable view from `src/view.rs`. -/
structure TooDeeViewMut (α : Type) where
  data : List α
  num_cols : Nat
  num_rows : Nat
  main_cols : Nat
  start : Nat × Nat
deriving DecidableEq, Repr

/-- `TooDeeView::from_toodee` from `src/view.rs` (lines 72-92); the
`get_unchecked(data_start..data_start + data_len)` slice is modelled by
`drop`/`take`. -/
def TooDeeView.from_toodee {α : Type} (start end_ : Nat × Nat) (t : TooDee α) :
    Option (TooDeeView α) :=
  (calculate_view_dimensions start end_ t.num_cols t.num_rows).map fun dims =>
    let main_cols := t.num_cols
    let data_start := start.snd * main_cols + start.fst
    let data_len := if dims.snd = 0 then 0 else (dims.snd - 1) * main_cols + dims.fst
    { data := (t.data.drop data_start).take data_len
      num_cols := dims.fst
      num_rows := dims.snd
      main_cols := main_cols
      start := start }

/-- `TooDeeViewMut::from_toodee` from `src/view.rs` (lines 269-289). -/
def TooDeeViewMut.from_toodee {α : Type} (start end_ : Nat × Nat) (t : TooDee α) :
    Option (TooDeeViewMut α) :=
  (calculate_view_dimensions start end_ t.num_cols t.num_rows).map fun dims =>
    let main_cols := t.num_cols
    let data_start := start.snd * main_cols + start.fst
    let data_len := if dims.snd = 0 then 0 else (dims.snd - 1) * main_cols + dims.fst
    { data := (t.data.drop data_start).take data_len
      num_cols := dims.fst
      num_rows := dims.snd
      main_cols := main_cols
      start := start }

/-- Swap the two disjoint equal-length segments `[a, a+len)` and
`[b, b+len)` (with `a + len ≤ b`) of a flat buffer.  This models the
`split_at_mut` + `ptr::swap_nonoverlapping` sequence used by the
`swap_rows` implementations. -/
def swapSegs {α : Type} (d : List α) (a b len : Nat) : List α :=
  d.take a ++ (d.drop b).take len ++ (d.drop (a + len)).take (b - (a + len)) ++
    (d.drop a).take len ++ d.drop (b + len)

/-- `TooDee::swap_rows` from `src/toodee.rs` (lines 321-340): the equal
indices early return comes before the ordering swap and the bounds
assertion; the row at `r1*num_cols` and the one at
`r1*num_cols + num_cols + (r2-r1-1)*num_cols = r2*num_cols` are swapped. -/
def TooDee.swap_rows {α : Type} (t : TooDee α) (r1 r2 : Nat) : Option (TooDee α) :=
  if r1 = r2 then some t
  else
    let lo := if r2 < r1 then r2 else r1
    let hi := if r2 < r1 then r1 else r2
    if hi < t.num_rows then
      some { t with data := swapSegs t.data (lo * t.num_cols) (hi * t.num_cols) t.num_cols }
    else none

/-- `TooDeeViewMut::swap_rows` from `src/view.rs` (lines 456-480): a
`match r1.cmp(&r2)` whose `Equal` arm returns immediately; rows live at
stride `main_cols`. -/
def TooDeeViewMut.swap_rows {α : Type} (w : TooDeeViewMut α) (r1 r2 : Nat) :
    Option (TooDeeViewMut α) :=
  match compare r1 r2 with
  | Ordering.eq => some w
  | Ordering.lt =>
    if r2 < w.num_rows then
      some { w with data := swapSegs w.data (r1 * w.main_cols) (r2 * w.main_cols) w.num_cols }
    else none
  | Ordering.gt =>
    if r1 < w.num_rows then
      some { w with data := swapSegs w.data (r2 * w.main_cols) (r1 * w.main_cols) w.num_cols }
    else none

/-- The default `TooDeeOpsMut::swap_rows` from `src/ops.rs` (lines
246-260), instantiated at the owning container (`rows_mut()` has
`skip_cols = 0`): again the `Equal` arm of `match r1.cmp(&r2)` returns
first; otherwise the two row slices obtained from `iter.nth(r1)` and
`iter.nth(r2-r1-1)` are exchanged with `swap_with_slice`. -/
def TooDee.ops_swap_rows {α : Type} (t : TooDee α) (r1 r2 : Nat) : Option (TooDee α) :=
  match compare r1 r2 with
  | Ordering.eq => some t
  | Ordering.lt =>
    if r2 < t.num_rows then
      some { t with data := swapSegs t.data (r1 * t.num_cols) (r2 * t.num_cols) t.num_cols }
    else none
  | Ordering.gt =>
    if r1 < t.num_rows then
      some { t with data := swapSegs t.data (r2 * t.num_cols) (r1 * t.num_cols) t.num_cols }
    else none

/-- The mutable row iterator from `src/iter.rs` (lines 120-233). -/
structure RowsMut (α : Type) where
  v : List α
  cols : Nat
  skip_cols : Nat
deriving DecidableEq, Repr

/-- `RowsMut::size_hint`/`len` (`src/iter.rs` lines 155-163). -/
def RowsMut.size_hint {α : Type} (it : RowsMut α) : Nat :=
  if it.cols = 0 then 0
  else
    let len := it.v.length
    let denom := it.cols + it.skip_cols
    len / denom + (len % denom) / it.cols

/-- `RowsMut::next_back` (`src/iter.rs` lines 191-208). -/
def RowsMut.next_back {α : Type} (it : RowsMut α) : Option (List α) × RowsMut α :=
  if it.v.isEmpty then (none, it)
  else
    let tmp := it.v
    let tmp_len := tmp.length
    let front := tmp.take (tmp_len - it.cols)
    let back := tmp.drop (tmp_len - it.cols)
    if front.isEmpty then (some back, { it with v := [] })
    else (some back, { it with v := front.take (tmp_len - it.cols - it.skip_cols) })

/-- `RowsMut::nth_back` (`src/iter.rs` lines 211-224).  The source first
executes `mem::replace(&mut self.v, &mut [])` into `tmp` and then slices
`tmp` up to `self.v.len() - adj` — but `self.v` has just been replaced by
the empty slice, so `self.v.len()` is `0`.  `replaced_v` models the
post-replace value of `self.v`; for `adj = 0` the Rust code and this
model agree exactly (`0 - 0 = 0`), while for `adj > 0` the Rust
subtraction underflows (a debug panic / release-mode undefined behaviour)
and the model truncates at zero. -/
def RowsMut.nth_back {α : Type} (it : RowsMut α) (n : Nat) : Option (List α) × RowsMut α :=
  let adj := n * (it.cols + it.skip_cols) % USIZE_MOD
  let overflow := USIZE_MOD ≤ n * (it.cols + it.skip_cols)
  if it.v.length ≤ adj ∨ overflow then
    RowsMut.next_back { it with v := [] }
  else
    let tmp := it.v
    let replaced_v : List α := []
    RowsMut.next_back { it with v := tmp.take (replaced_v.length - adj) }

/-- The rotation performed by `slice::rotate_left(mid)` (for `mid ≤ len`). -/
def rotateLeft {α : Type} (l : List α) (mid : Nat) : List α :=
  l.drop mid ++ l.take mid

/-- Read row `r` of a flat row-major buffer with row length `cols`. -/
def getRow {α : Type} (cols : Nat) (d : List α) (r : Nat) : List α :=
  (d.drop (r * cols)).take cols

/-- Overwrite row `r` of a flat row-major buffer with row length `cols`. -/
def setRow {α : Type} (cols : Nat) (d : List α) (r : Nat) (row : List α) : List α :=
  d.take (r * cols) ++ row ++ d.drop (r * cols + cols)

/-- `x[xs..xe].swap_with_slice(&mut y[ys..ye])` for two separate buffers
of equal segment length. -/
def swapSlices {α : Type} (x y : List α) (xs xe ys ye : Nat) : List α × List α :=
  (x.take xs ++ (y.drop ys).take (ye - ys) ++ x.drop xe,
   y.take ys ++ (x.drop xs).take (xe - xs) ++ y.drop ye)

/-- The body of the swap arm of the translate loop
(`src/translate.rs` lines 93-99): the two guarded `swap_with_slice`
calls between the base row and the next row of the cycle. -/
def translateStep {α : Type} (num_cols mid : Nat) (b n : List α) : List α × List α :=
  let s1 := if 0 < mid then swapSlices b n 0 mid (num_cols - mid) num_cols else (b, n)
  if mid < num_cols then swapSlices s1.fst s1.snd mid num_cols 0 (num_cols - mid) else s1

/-- The inner `loop` of `translate_with_wrap` (`src/translate.rs` lines
77-108), walking one cycle of the row permutation.  The recursion is
fuelled; `translate_with_wrap` supplies `num_rows + 1` fuel, which covers
any cycle (a cycle performs at most `num_rows` iterations before
`base_row == next_row`).  Returns the buffer together with the updated
`swap_count` and `mid` (the latter two persist across cycles in the
source, which is why they are threaded through). -/
def translateInner {α : Type} (num_cols num_rows row_adj_abs col_mid : Nat) :
    Nat → Nat → Nat → Nat → Nat → List α → List α × Nat × Nat
  | 0, _, _, swap_count, mid, d => (d, swap_count, mid)
  | fuel + 1, base_row, next_row, swap_count, mid, d =>
    let next_row := if num_rows ≤ next_row then next_row - num_rows else next_row
    let swap_count := swap_count + 1
    if base_row = next_row then
      (if 0 < mid then
        setRow num_cols d base_row (rotateLeft (getRow num_cols d base_row) mid)
       else d, swap_count, mid)
    else
      let bn := translateStep num_cols mid (getRow num_cols d base_row) (getRow num_cols d next_row)
      let d := setRow num_cols (setRow num_cols d base_row bn.fst) next_row bn.snd
      let mid := if num_cols ≤ mid + col_mid then mid + col_mid - num_cols else mid + col_mid
      translateInner num_cols num_rows row_adj_abs col_mid fuel
        base_row (next_row + row_adj_abs) swap_count mid d

/-- The outer `while swap_count < num_rows` loop of `translate_with_wrap`
(`src/translate.rs` lines 73-119).  Fuelled with `num_rows` by the
caller; each iteration starts one cycle at `base_row`. -/
def translateOuter {α : Type} (num_cols num_rows row_adj_abs col_mid : Nat) :
    Nat → Nat → Nat → Nat → List α → List α
  | 0, _, _, _, d => d
  | fuel + 1, base_row, swap_count, mid, d =>
    if swap_count < num_rows then
      let r := translateInner num_cols num_rows row_adj_abs col_mid (num_rows + 1)
        base_row (base_row + row_adj_abs) swap_count mid d
      if num_rows ≤ r.snd.fst then r.fst
      else translateOuter num_cols num_rows row_adj_abs col_mid fuel
        (base_row + 1) r.snd.fst r.snd.snd r.fst
    else d

/-- Apply `f` to each of the `rows` consecutive `cols`-length rows of a
flat buffer (the `for r in self.rows_mut()` loop). -/
def mapRowsAux {α : Type} (cols : Nat) (f : List α → List α) : Nat → List α → List α
  | 0, d => d
  | r + 1, d => f (d.take cols) ++ mapRowsAux cols f r (d.drop cols)

/-- `translate_with_wrap` from `src/translate.rs` (lines 13-122).  Rust's
`isize` remainder `%` truncates toward zero, which is `Int.tmod`.  (The
source skips the remainder when `num_rows as isize` is negative, i.e.
for buffers above `2^63` rows; such sizes are not representable here and
the guard is therefore always taken.) -/
def translate_with_wrap {α : Type} (t : TooDee α) (col_adj row_adj : Int) : TooDee α :=
  let num_rows := t.num_rows
  let num_cols := t.num_cols
  if num_rows = 0 ∨ num_cols = 0 then t
  else
    let row_adj := row_adj.tmod (Int.ofNat num_rows)
    let col_adj := col_adj.tmod (Int.ofNat num_cols)
    let row_adj_abs : Nat := if 0 ≤ row_adj then row_adj.toNat else num_rows - (-row_adj).toNat
    let col_mid : Nat :=
      if col_adj < 0 then (-col_adj).toNat
      else if 0 < col_adj then num_cols - col_adj.toNat
      else 0
    if row_adj = 0 then
      if col_mid ≠ 0 then
        { t with data := mapRowsAux num_cols (fun r => rotateLeft r col_mid) num_rows t.data }
      else t
    else
      { t with data := translateOuter num_cols num_rows row_adj_abs col_mid num_rows 0 0 col_mid t.data }

/-- The 10-by-10 grid filled row-major with `0..100`, as used by the
spec's translate properties and by `src/tests_translate.rs`. -/
def grid10 : TooDee Nat :=
  { data := List.range 100, num_cols := 10, num_rows := 10 }

/-- The `RowsMut` iterator of a fresh 2-by-2 grid `[0,1,2,3]`. -/
def rowsMutC6 : RowsMut Nat :=
  { v := [0, 1, 2, 3], cols := 2, skip_cols := 0 }

/-- Pointwise update of a function-modelled array slot. -/
def fupd {beta : Type} (f : Nat → beta) (k : Nat) (v : beta) : Nat → beta :=
  fun j => if j = k then v else f j

/-- The reverse-lookup phase of `build_swap_trace` (`src/sort.rs` lines
15-23): for each `idx`, set `ordering[ordering[idx].0].1 = idx`.  The
state is an array modelled as a function; `fuel` counts the remaining
indices. -/
def bstRevLoop : Nat → Nat → (Nat → Nat × Nat) → (Nat → Nat × Nat)
  | 0, _, ord => ord
  | fuel + 1, idx, ord =>
    let v := (ord idx).fst
    bstRevLoop fuel (idx + 1) (fupd ord v ((ord v).fst, idx))

/-- The swap-emission phase of `build_swap_trace` (`src/sort.rs` lines
25-42).  The trace is written in place into slot `swap_count` of the
same array, exactly as in the source; the two conditional updates that
follow are sequenced like the two Rust statements. -/
def bstMainLoop : Nat → Nat → Nat → (Nat → Nat × Nat) → (Nat → Nat × Nat) × Nat
  | 0, _, sc, ord => (ord, sc)
  | fuel + 1, i, sc, ord =>
    let other := (ord i).fst
    let inv_i := (ord i).snd
    if i ≠ other then
      let ord1 := fupd ord sc (i, other)
      let sc1 := sc + 1
      let ord3 :=
        if i < inv_i then
          let ord2 := fupd ord1 inv_i (other, (ord1 inv_i).snd)
          fupd ord2 other ((ord2 other).fst, inv_i)
        else ord1
      bstMainLoop fuel (i + 1) sc1 ord3
    else bstMainLoop fuel (i + 1) sc ord

/-- `build_swap_trace` from `src/sort.rs` (lines 10-46): reverse-lookup
phase, swap-emission phase, then the first `swap_count` slots of the
array are returned as the trace. -/
def build_swap_trace (len : Nat) (ord : Nat → Nat × Nat) : List (Nat × Nat) :=
  let ord0 := bstRevLoop len 0 ord
  let r := bstMainLoop len 0 0 ord0
  (List.range r.snd).map r.fst

/-- The initial `ordering` array handed to `build_swap_trace` by the sort
entry points: slot `j` holds the original index of the pair that sorting
placed at position `j`.  (In Rust the second components initially hold
reinterpreted pointer bits; the reverse-lookup phase overwrites the
second component of every in-range slot before it is ever read, so they
are modelled as `0`.) -/
def orderingOf (idxs : List Nat) : Nat → Nat × Nat :=
  fun j => (idxs.getD j 0, 0)

/-- Rust's stable `sort_by(|i, j| compare(i.1, j.1))` on the
`(original index, value)` pairs, modelled by the stable
`List.insertionSort`. -/
def sortPairs {α : Type} (compare : α → α → Ordering) (l : List (Nat × α)) :
    List (Nat × α) :=
  List.insertionSort (fun a b => compare a.snd b.snd ≠ Ordering.gt) l

/-- A single `ptr::swap` of two slots of a row slice (`r.swap(i.0, i.1)`). -/
def listSwap {α : Type} (l : List α) (i j : Nat) : List α :=
  match l[i]?, l[j]? with
  | some a, some b => (l.set i b).set j a
  | _, _ => l

/-- Apply every swap of a trace, left to right, to a row slice
(the `for i in swap_trace.iter()` loop of `src/sort.rs`). -/
def applyTrace {α : Type} (trace : List (Nat × Nat)) (l : List α) : List α :=
  trace.foldl (fun acc s => listSwap acc s.fst s.snd) l

/-- The swap trace computed inside `sort_by_row` for a given row and
comparison: sort the `(index, value)` pairs of the row stably, then build
the swap trace from the sorted original indices. -/
def sortTraceOfRow {α : Type} (t : TooDee α) (row : Nat) (compare : α → α → Ordering) :
    List (Nat × Nat) :=
  build_swap_trace (sortPairs compare (getRow t.num_cols t.data row).enum).length
    (orderingOf ((sortPairs compare (getRow t.num_cols t.data row).enum).map Prod.fst))

/-- The column permutation induced by sorting row `row`: position `j` of
the sorted row receives the element of original column
`sortPermOfRow t row compare j`. -/
def sortPermOfRow {α : Type} (t : TooDee α) (row : Nat) (compare : α → α → Ordering) :
    Nat → Nat :=
  fun j => ((sortPairs compare (getRow t.num_cols t.data row).enum).map Prod.fst).getD j 0

/-- `SortOps::sort_by_row` from `src/sort.rs` (lines 80-109): assert the
row index, sort the `(index, value)` pairs of the row, build the swap
trace, then replay the trace on every row of the grid. -/
def sort_by_row {α : Type} (t : TooDee α) (row : Nat) (compare : α → α → Ordering) :
    Option (TooDee α) :=
  if row < t.num_rows then
    some { t with
      data := mapRowsAux t.num_cols (applyTrace (sortTraceOfRow t row compare))
        t.num_rows t.data }
  else none

/-- `SortOps::sort_by_col_key` from `src/sort.rs` (lines 216-222).  The
body forwards to `sort_by_row`, passing the *column* index as the row
index: `self.sort_by_row(col, |a, b| f(a).cmp(&f(b)))`. -/
def sort_by_col_key {α beta : Type} [LinearOrder beta] (t : TooDee α) (col : Nat)
    (f : α → beta) : Option (TooDee α) :=
  sort_by_row t col (fun a b => compare (f a) (f b))

/-- Column `c` of a grid, read through the row-major index map. -/
def getCol {α : Type} [Inhabited α] (t : TooDee α) (c : Nat) : List α :=
  (List.range t.num_rows).map fun r => t.data.getD (r * t.num_cols + c) default

/-- A 1-column, 2-row grid whose single column is out of order. -/
def gridC3 : TooDee Nat := { data := [1, 0], num_cols := 1, num_rows := 2 }

/-- The index action of a single transposition of a swap trace. -/
def swapFun (s : Nat × Nat) (k : Nat) : Nat :=
  if k = s.fst then s.snd else if k = s.snd then s.fst else k

/-- The index action of a whole swap trace: position `k` of the
swapped list holds the element originally at position `traceFun E k`. -/
def traceFun : List (Nat × Nat) → Nat → Nat
  | [], k => k
  | s :: E, k => swapFun s (traceFun E k)

/-- `p` permutes the range below `n`: closed, injective and surjective on
the range. -/
def PermOnRange (p : Nat → Nat) (n : Nat) : Prop :=
  (∀ j, j < n → p j < n) ∧
  (∀ j k, j < n → k < n → p j = p k → j = k) ∧
  (∀ m, m < n → ∃ j, j < n ∧ p j = m)

/-- `j` is the maximum of its cycle under `p`: all iterates within the
first `n` steps stay at or below `j` (for a permutation of the range
below `n` the cycle repeats within `n` steps, so this bounds every
iterate). -/
def isCycleMax (p : Nat → Nat) (n j : Nat) : Prop := ∀ k, k < n → p^[k + 1] j ≤ j

instance (p : Nat → Nat) (n j : Nat) : Decidable (isCycleMax p n j) := by
  unfold isCycleMax; infer_instance

instance (p : Nat → Nat) (n j : Nat) : Decidable (isCycleMax p n j) := by
  unfold isCycleMax; infer_instance

/-- Number of fixed points of `p` on the range below `n` (the 1-cycles
of the permutation). -/
def fixedPointCount (p : Nat → Nat) (n : Nat) : Nat :=
  (List.range n).countP fun j => decide (p j = j)

/-- Number of cycles of length at least 2 of `p` on the range below `n`,
counted by their maximal element. -/
def nontrivialCycleCount (p : Nat → Nat) (n : Nat) : Nat :=
  (List.range n).countP fun j => decide (p j ≠ j) && decide (isCycleMax p n j)

/-- Loop invariant of the swap-emission phase of `build_swap_trace` at
position `i`: the first `E.length` slots hold the trace emitted so far,
positions below `i` are already placed (the trace's index action agrees
with the target permutation `p`), and on the positions from `i` up to
`n` the array stores a bijection (with its inverse in the second
components) pointing each position at the current location of its
destined element; `rep` records that location as an iterate of `p`. -/
structure BstInv (n i : Nat) (p : Nat → Nat) (ord : Nat → Nat × Nat)
    (E : List (Nat × Nat)) : Prop where
  sc_le : E.length ≤ i
  slots : ∀ k, k < E.length → ord k = E.getD k (0, 0)
  placed : ∀ k, k < i → traceFun E k = p k
  bounds : ∀ j, i ≤ j → j < n →
    i ≤ (ord j).fst ∧ (ord j).fst < n ∧ i ≤ (ord j).snd ∧ (ord j).snd < n
  moved : ∀ j, i ≤ j → j < n → traceFun E ((ord j).fst) = p j
  link1 : ∀ j, i ≤ j → j < n → (ord ((ord j).fst)).snd = j
  link2 : ∀ j, i ≤ j → j < n → (ord ((ord j).snd)).fst = j
  entries : ∀ s, s ∈ E → s.fst < n ∧ s.snd < n
  rep : ∀ j, i ≤ j → j < n → ∃ m, (ord j).fst = p^[m + 1] j ∧ ∀ k, k < m → p^[k + 1] j < i

/-- A 3-column, 2-row grid whose first row is the 3-cycle `[2, 0, 1]`,
used to exercise the sort theorems. -/
def gridC7 : TooDee Nat := { data := [2, 0, 1, 10, 20, 30], num_cols := 3, num_rows := 2 }

/-- Validity of a view request: `start <= end` componentwise and `end`
within the parent's extents. -/
def viewRequestValid (s e : Nat × Nat) (num_cols num_rows : Nat) : Prop :=
  s.fst ≤ e.fst ∧ s.snd ≤ e.snd ∧ e.fst ≤ num_cols ∧ e.snd ≤ num_rows

instance (s e : Nat × Nat) (nc nr : Nat) : Decidable (viewRequestValid s e nc nr) := by
  unfold viewRequestValid; infer_instance

/-- A 10-by-5 parent grid used to exercise `view_dimension_spec`. -/
def gridC9 : TooDee Nat :=
  { data := List.replicate 50 0, num_cols := 10, num_rows := 5 }


/-- `ptr::copy` (memmove semantics) of `len` elements from offset `src`
to offset `dest` of a flat buffer, as a list splice: the source segment
is read from the buffer as it was before the copy. -/
def ptrCopy {α : Type} (buf : List α) (src dest len : Nat) : List α :=
  buf.take dest ++ (buf.drop src).take len ++ buf.drop (dest + len)

/-- The compaction loop of `DrainCol::drop` (`src/toodee.rs`):
`for _ in 1..num_rows { ptr::copy(src, dest, new_cols); src = src.add(orig_cols);
dest = dest.add(new_cols); }`, with the iteration count made explicit. -/
def drainColLoop {α : Type} (orig_cols new_cols : Nat) :
    Nat → Nat → Nat → List α → List α
  | 0, _, _, buf => buf
  | k + 1, src, dest, buf =>
    drainColLoop orig_cols new_cols k (src + orig_cols) (dest + new_cols)
      (ptrCopy buf src dest new_cols)

/-- The `DrainCol` cursor returned by `TooDee::remove_col`.  In the Rust
source it holds a column iterator over the drained elements plus a
pointer back to the grid; consuming the iterator only `ptr::read`s
values and never moves buffer memory, so for the disposal behaviour the
iterator state is abstracted to the two consumption counters (elements
taken from the front and from the back), which `dispose` ignores exactly
as `DrainCol::drop`'s compaction ignores the iterator. -/
structure DrainCol (α : Type) where
  taken_front : Nat
  taken_back : Nat
  col : Nat
  toodee : TooDee α

/-- `TooDee::remove_col` (`src/toodee.rs` lines 801-820): asserts
`index < num_cols`, then computes
`let slice_len = v.len() - num_cols + 1;`, whose `usize` subtraction
underflows (a panic) whenever `v.len() < num_cols`; both failure paths
are modelled by `none`.  On success it hands out a fresh `DrainCol`
cursor; `v.set_len(0)` only changes the length field, the buffer memory
still holds every element, so the model keeps `data` intact inside the
cursor. -/
def TooDee.remove_col {α : Type} (t : TooDee α) (index : Nat) : Option (DrainCol α) :=
  if index < t.num_cols then
    if t.num_cols ≤ t.data.length then
      some { taken_front := 0, taken_back := 0, col := index, toodee := t }
    else none
  else none

/-- `DrainCol::drop` (`src/toodee.rs` lines 1043-1100): the remaining
elements are read out and dropped (no buffer movement), then the
`DropGuard` compacts the surviving columns - one `ptr::copy` of
`new_cols` elements per row boundary (`for _ in 1..num_rows`), a final
copy of the `orig_cols - col - 1` elements after the hole in the last
row - decrements `num_cols` (zeroing `num_rows` with it when it reaches
zero) and sets the vector length to `num_cols * num_rows`. -/
def DrainCol.dispose {α : Type} (d : DrainCol α) : TooDee α :=
  let toodee := d.toodee
  let col := d.col
  let orig_cols := toodee.num_cols
  let new_cols := orig_cols - 1
  let num_rows := toodee.num_rows
  let vec1 := drainColLoop orig_cols new_cols (num_rows - 1) (col + 1) col toodee.data
  let vec2 := ptrCopy vec1 (col + 1 + (num_rows - 1) * orig_cols)
    (col + (num_rows - 1) * new_cols) (orig_cols - col - 1)
  let new_num_cols := new_cols
  let new_num_rows := if new_num_cols = 0 then 0 else num_rows
  { data := vec2.take (new_num_cols * new_num_rows),
    num_cols := new_num_cols, num_rows := new_num_rows }

/-- The buffer the claim says must remain after removing column `i`:
every row with its `i`-th element erased, in row-major order.  This
definition follows the claim's words (it is the spec side of the
refinement), to be compared with the compaction performed by
`DrainCol.dispose`. -/
def removeColSpec {α : Type} (cols i : Nat) : Nat → List α → List α
  | 0, _ => []
  | r + 1, data =>
    (data.take cols).eraseIdx i ++ removeColSpec cols i r (data.drop cols)

/-- C2: the claim states that every constructor (`new`, `init`, `from_vec`)
fails loudly on a dimension pair with exactly one zero dimension, so that
invariant I1 (`num_cols = 0 ↔ num_rows = 0`) holds for every reachable
value.  The code of `TooDee::new` lacks the zero-dimension assertion that
its own doc comment promises: `TooDee::new(5, 0)` returns normally and
yields a value with `num_cols = 5`, `num_rows = 0`, violating I1. -/
theorem new_violates_invariant_I1 :
    ∃ t : TooDee Unit, TooDee.new Unit 5 0 = some t ∧ ¬ t.I1 :=
  ⟨{ data := [], num_cols := 5, num_rows := 0 }, by decide, by decide⟩

/-- For contrast with `new_violates_invariant_I1`: the `init` constructor
does reject the same dimension pair, so the missing assertion in `new` is
an inconsistency inside the construction API itself. -/
theorem init_rejects_lone_zero_dimension :
    TooDee.init 5 0 (0 : Nat) = none := by decide

/-- C9: `view(start, end)` / `view_mut(start, end)` succeed exactly when
`start <= end` componentwise and `end` lies within the parent's extents;
an accepted request yields a view of dimensions
`(end.0 - start.0, end.1 - start.1)`, except that both dimensions are
reported as `0` whenever either computed extent is `0`. -/
theorem view_dimension_spec {α : Type} (s e : Nat × Nat) (t : TooDee α) :
    ((TooDeeView.from_toodee s e t).isSome ↔ viewRequestValid s e t.num_cols t.num_rows) ∧
    ((TooDeeViewMut.from_toodee s e t).isSome ↔ viewRequestValid s e t.num_cols t.num_rows) ∧
    (∀ v, TooDeeView.from_toodee s e t = some v →
      if e.fst - s.fst = 0 ∨ e.snd - s.snd = 0 then v.num_cols = 0 ∧ v.num_rows = 0
      else v.num_cols = e.fst - s.fst ∧ v.num_rows = e.snd - s.snd) ∧
    (∀ v, TooDeeViewMut.from_toodee s e t = some v →
      if e.fst - s.fst = 0 ∨ e.snd - s.snd = 0 then v.num_cols = 0 ∧ v.num_rows = 0
      else v.num_cols = e.fst - s.fst ∧ v.num_rows = e.snd - s.snd) := by
  unfold TooDeeView.from_toodee TooDeeViewMut.from_toodee calculate_view_dimensions
    viewRequestValid
  by_cases h : e.fst < s.fst ∨ e.snd < s.snd ∨ t.num_cols < e.fst ∨ t.num_rows < e.snd
  · simp only [h, if_true]
    refine ⟨?_, ?_, ?_, ?_⟩ <;> simp <;> omega
  · simp only [h, if_false]
    by_cases hz : e.fst - s.fst = 0 ∨ e.snd - s.snd = 0
    · simp only [hz, if_true]
      refine ⟨?_, ?_, ?_, ?_⟩ <;> simp <;> omega
    · simp only [hz, if_false]
      refine ⟨?_, ?_, ?_, ?_⟩ <;> simp <;> omega

/-- Witness for `view_dimension_spec`: the request `(1,2)..(8,4)` on a
10-by-5 grid is accepted and yields a 7-by-2 view. -/
theorem view_dimension_spec_witness :
    ∃ v, TooDeeView.from_toodee (1, 2) (8, 4) gridC9 = some v ∧
      v.num_cols = 7 ∧ v.num_rows = 2 := by
  obtain ⟨v, hv⟩ := Option.isSome_iff_exists.mp
    (((view_dimension_spec (1, 2) (8, 4) gridC9).1).mpr (by decide))
  refine ⟨v, hv, ?_⟩
  have h2 := (view_dimension_spec (1, 2) (8, 4) gridC9).2.2.1 v hv
  simpa using h2

/-- C10: for grids and mutable views (including the trait-default
implementation in `src/ops.rs`), `swap_rows(r, r)` returns normally and
leaves the value unchanged for every `r`, even `r ≥ num_rows`, because
the equal-indices early return precedes every bounds assertion. -/
theorem swap_rows_equal_indices_noop {α : Type} (t : TooDee α) (w : TooDeeViewMut α) (r : Nat) :
    t.swap_rows r r = some t ∧ w.swap_rows r r = some w ∧ t.ops_swap_rows r r = some t := by
  refine ⟨by simp [TooDee.swap_rows], ?_, ?_⟩
  · unfold TooDeeViewMut.swap_rows
    rw [show compare r r = Ordering.eq from by simp [Nat.compare_eq_eq]]
  · unfold TooDee.ops_swap_rows
    rw [show compare r r = Ordering.eq from by simp [Nat.compare_eq_eq]]

/-- C6: the claim asserts that every row/column iterator stays exact-size
under any mix of `next`, `next_back`, `nth`, `nth_back`.  For `RowsMut`
(and identically `ColMut`), `nth_back` reads `self.v.len()` *after*
`mem::replace` has emptied `self.v`, so it truncates the buffer to
nothing: on a fresh 2-row iterator reporting `len() = 2`, `nth_back(0)`
(which must yield the last row and leave one more) yields nothing and
leaves an iterator of length 0 — 0 items are produced in total. -/
theorem rows_mut_nth_back_breaks_exactness :
    rowsMutC6.size_hint = 2 ∧
    (rowsMutC6.nth_back 0).fst = none ∧
    ((rowsMutC6.nth_back 0).snd).size_hint = 0 := by decide

set_option maxRecDepth 100000 in
/-- C4: the claim (and the repository's own `tests_translate.rs`) expect
`translate_with_wrap(3, 8)` on the row-major 10-by-10 grid `0..100` to
put 83 at cell (0,0) and 72 at cell (9,9), i.e. to read input offset
`((c+3) mod 10, (r+8) mod 10)`.  Evaluating the code shows it puts 27 at
cell (0,0) and 14 at cell (9,9) instead. -/
theorem translate_with_wrap_3_8_cells :
    (translate_with_wrap grid10 3 8).data.getD 0 0 = 27 ∧
    (translate_with_wrap grid10 3 8).data.getD 99 0 = 14 := by decide

set_option maxRecDepth 100000 in
/-- C5: the claimed involution — `translate_with_wrap(3,8)` followed by
`translate_with_wrap((10-3) mod 10, (10-8) mod 10)` — fails to restore
the spec's own 10-by-10 example grid: the accumulated `mid` offset is
not reset between row-permutation cycles. -/
theorem translate_involution_fails_on_grid10 :
    translate_with_wrap (translate_with_wrap grid10 3 8) 7 2 ≠ grid10 := by decide

/-- C3: the claim states that `sort_by_col_key(col, f)` reorders whole
rows so that column `col` becomes non-decreasing in the keys.  The
implementation instead forwards to `sort_by_row`, treating `col` as a
*row* index: on a 1-column grid with column `[1, 0]`, sorting by the
(only) column's key is a no-op — it sorts the one-element row 0 — and
the column stays unsorted. -/
theorem sort_by_col_key_sorts_wrong_axis :
    sort_by_col_key gridC3 0 (fun x => x) = some gridC3 ∧
    ¬ List.Sorted (· ≤ ·) (getCol gridC3 0) := by
  constructor
  · decide
  · decide


theorem traceFun_append (E E' : List (Nat × Nat)) (k : Nat) :
    traceFun (E ++ E') k = traceFun E (traceFun E' k) := by
  induction E with
  | nil => rfl
  | cons s E ih => simp [traceFun, ih]

theorem listSwap_length {α : Type} (l : List α) (i j : Nat) :
    (listSwap l i j).length = l.length := by
  unfold listSwap
  rcases h1 : l[i]? with _ | a <;> rcases h2 : l[j]? with _ | b <;> simp

theorem getElem?_listSwap {α : Type} (l : List α) (i j : Nat)
    (hi : i < l.length) (hj : j < l.length) (m : Nat) :
    (listSwap l i j)[m]? = l[swapFun (i, j) m]? := by
  unfold listSwap swapFun
  rw [List.getElem?_eq_getElem hi, List.getElem?_eq_getElem hj]
  simp only []
  by_cases hmj : m = j
  · subst hmj
    rw [List.getElem?_set_self (by simpa using hj)]
    by_cases hij : m = i
    · subst hij; simp [List.getElem?_eq_getElem hi]
    · simp [hij, List.getElem?_eq_getElem hj]
  · rw [List.getElem?_set_ne (fun h => hmj h.symm)]
    by_cases hmi : m = i
    · subst hmi
      rw [List.getElem?_set_self hi]
      simp [hmj, List.getElem?_eq_getElem hj]
    · rw [List.getElem?_set_ne (fun h => hmi h.symm)]
      simp [hmi, hmj]

theorem applyTrace_length {α : Type} (E : List (Nat × Nat)) (l : List α) :
    (applyTrace E l).length = l.length := by
  induction E generalizing l with
  | nil => rfl
  | cons s E ih =>
    show (applyTrace E (listSwap l s.fst s.snd)).length = l.length
    rw [ih, listSwap_length]

theorem getElem?_applyTrace {α : Type} (E : List (Nat × Nat)) (l : List α)
    (hb : ∀ s ∈ E, s.fst < l.length ∧ s.snd < l.length) (k : Nat) :
    (applyTrace E l)[k]? = l[traceFun E k]? := by
  induction E generalizing l with
  | nil => rfl
  | cons s E ih =>
    have hs := hb s (by simp)
    show (applyTrace E (listSwap l s.fst s.snd))[k]? = _
    rw [ih (listSwap l s.fst s.snd)
      (by intro x hx; rw [listSwap_length]; exact hb x (by simp [hx]))]
    rw [getElem?_listSwap l s.fst s.snd hs.1 hs.2]
    rfl

theorem bstRevLoop_fst (fuel : Nat) : ∀ (idx : Nat) (ord : Nat → Nat × Nat) (j : Nat),
    ((bstRevLoop fuel idx ord) j).fst = (ord j).fst := by
  induction fuel with
  | zero => intro idx ord j; rfl
  | succ fuel ih =>
    intro idx ord j
    show ((bstRevLoop fuel (idx + 1) _) j).fst = _
    rw [ih]
    unfold fupd
    by_cases h : j = (ord idx).fst <;> simp [h]

theorem bstRevLoop_untouched (fuel : Nat) : ∀ (idx : Nat) (ord : Nat → Nat × Nat) (s : Nat),
    (∀ k, idx ≤ k → k < idx + fuel → (ord k).fst ≠ s) →
    (bstRevLoop fuel idx ord) s = ord s := by
  induction fuel with
  | zero => intro idx ord s _; rfl
  | succ fuel ih =>
    intro idx ord s h
    show (bstRevLoop fuel (idx + 1) _) s = _
    rw [ih]
    · unfold fupd
      have : s ≠ (ord idx).fst := fun hh => h idx (le_refl _) (by omega) hh.symm
      simp [Ne.symm this |>.symm, this]
    · intro k hk1 hk2
      unfold fupd
      have hfst : (fupd ord (ord idx).fst ((ord (ord idx).fst).fst, idx) k).fst = (ord k).fst := by
        unfold fupd
        by_cases hk : k = (ord idx).fst <;> simp [hk]
      intro hc
      exact h k (by omega) (by omega) (by rw [← hfst]; exact hc)

theorem bstRevLoop_link (fuel : Nat) : ∀ (idx : Nat) (ord : Nat → Nat × Nat) (j : Nat),
    idx ≤ j → j < idx + fuel →
    (∀ k k', idx ≤ k → k < idx + fuel → idx ≤ k' → k' < idx + fuel →
      (ord k).fst = (ord k').fst → k = k') →
    ((bstRevLoop fuel idx ord) ((ord j).fst)).snd = j := by
  induction fuel with
  | zero => intro idx ord j h1 h2; omega
  | succ fuel ih =>
    intro idx ord j h1 h2 hinj
    set v := (ord idx).fst with hv
    set ord1 := fupd ord v ((ord v).fst, idx) with hord1
    have hfst1 : ∀ k, (ord1 k).fst = (ord k).fst := by
      intro k; rw [hord1]; unfold fupd
      by_cases hk : k = v <;> simp [hk, hv]
    show ((bstRevLoop fuel (idx + 1) ord1) ((ord j).fst)).snd = j
    rcases Nat.eq_or_lt_of_le h1 with heq | hlt
    · subst heq
      rw [bstRevLoop_untouched fuel (idx + 1) ord1 (ord idx).fst]
      · rw [hord1]; unfold fupd; simp [hv]
      · intro k hk1 hk2 hc
        rw [hfst1] at hc
        have := hinj k idx (by omega) (by omega) (by omega) (by omega) hc
        omega
    · have : (ord j).fst = (ord1 j).fst := (hfst1 j).symm
      rw [this]
      apply ih (idx + 1) ord1 j hlt (by omega)
      intro k k' hk1 hk2 hk3 hk4 hc
      rw [hfst1, hfst1] at hc
      exact hinj k k' (by omega) (by omega) (by omega) (by omega) hc

theorem iterate_lt_of_permOnRange {p : Nat → Nat} {n : Nat} (hp : PermOnRange p n)
    {j : Nat} (hj : j < n) (k : Nat) : p^[k] j < n := by
  induction k with
  | zero => simpa
  | succ k ih =>
    rw [Function.iterate_succ_apply']
    exact hp.1 _ ih

theorem iterate_cancel_of_permOnRange {p : Nat → Nat} {n : Nat} (hp : PermOnRange p n)
    {x y : Nat} (hx : x < n) (hy : y < n) (a : Nat) (h : p^[a] x = p^[a] y) : x = y := by
  induction a with
  | zero => simpa using h
  | succ a ih =>
    apply ih
    rw [Function.iterate_succ_apply', Function.iterate_succ_apply'] at h
    exact hp.2.1 _ _ (iterate_lt_of_permOnRange hp hx a) (iterate_lt_of_permOnRange hp hy a) h

theorem exists_period_of_permOnRange {p : Nat → Nat} {n : Nat} (hp : PermOnRange p n)
    {j : Nat} (hj : j < n) : ∃ L, 1 ≤ L ∧ L ≤ n ∧ p^[L] j = j := by
  have hmaps : ∀ k ∈ Finset.range (n + 1), p^[k] j ∈ Finset.range n := by
    intro k _
    simpa using iterate_lt_of_permOnRange hp hj k
  obtain ⟨a, ha, b, hb, hne, heq⟩ :=
    Finset.exists_ne_map_eq_of_card_lt_of_maps_to (by simp) hmaps
  simp only [Finset.mem_range] at ha hb
  rcases Nat.lt_or_ge a b with hab | hab
  · refine ⟨b - a, by omega, by omega, ?_⟩
    have : p^[a] (p^[b - a] j) = p^[a] j := by
      rw [← Function.iterate_add_apply]
      rw [show a + (b - a) = b from by omega]
      exact heq.symm
    exact iterate_cancel_of_permOnRange hp (iterate_lt_of_permOnRange hp hj _) hj a this
  · have hab' : b < a := by omega
    refine ⟨a - b, by omega, by omega, ?_⟩
    have : p^[b] (p^[a - b] j) = p^[b] j := by
      rw [← Function.iterate_add_apply]
      rw [show b + (a - b) = a from by omega]
      exact heq
    exact iterate_cancel_of_permOnRange hp (iterate_lt_of_permOnRange hp hj _) hj b this

theorem iterate_periodic {p : Nat → Nat} {j L : Nat} (hfix : p^[L] j = j)
    (t : Nat) : p^[t] j = p^[t % L] j := by
  conv_lhs => rw [← Nat.div_add_mod t L]
  rw [Nat.add_comm, Function.iterate_add_apply]
  congr 1
  generalize t / L = q
  induction q with
  | zero => simp
  | succ q ih =>
    rw [Nat.mul_succ, Function.iterate_add_apply, hfix]
    exact ih

theorem fupd_same {beta : Type} (f : Nat → beta) (k : Nat) (v : beta) : fupd f k v k = v := by
  simp [fupd]

theorem fupd_ne {beta : Type} (f : Nat → beta) {k k' : Nat} (v : beta) (h : k' ≠ k) :
    fupd f k v k' = f k' := by
  simp [fupd, h]

theorem isCycleMax_iff_forall {p : Nat → Nat} {n : Nat} (hp : PermOnRange p n)
    {j : Nat} (hj : j < n) : isCycleMax p n j ↔ ∀ k, p^[k + 1] j ≤ j := by
  constructor
  · intro h k
    obtain ⟨L, hL1, hLn, hfix⟩ := exists_period_of_permOnRange hp hj
    rw [iterate_periodic hfix]
    rcases Nat.eq_zero_or_pos ((k + 1) % L) with h0 | hpos
    · rw [h0]; simp
    · have hlt : (k + 1) % L < L := Nat.mod_lt _ (by omega)
      have := h ((k + 1) % L - 1) (by omega)
      rwa [show (k + 1) % L - 1 + 1 = (k + 1) % L from by omega] at this
  · intro h k _
    exact h k

theorem rep_self_iff_cycleMax {p : Nat → Nat} {i m v : Nat}
    (hrep : v = p^[m + 1] i) (hpriors : ∀ k, k < m → p^[k + 1] i < i) (hge : i ≤ v) :
    (v = i ↔ ∀ k, p^[k + 1] i ≤ i) := by
  constructor
  · intro hv k
    have hfix : p^[m + 1] i = i := by omega
    rw [iterate_periodic hfix]
    rcases Nat.eq_zero_or_pos ((k + 1) % (m + 1)) with h0 | hpos
    · rw [h0]; simp
    · have hlt : (k + 1) % (m + 1) < m + 1 := Nat.mod_lt _ (by omega)
      have := hpriors ((k + 1) % (m + 1) - 1) (by omega)
      rw [show (k + 1) % (m + 1) - 1 + 1 = (k + 1) % (m + 1) from by omega] at this
      omega
  · intro h
    have := h m
    omega

theorem BstInv.fst_inj {n i : Nat} {p : Nat → Nat} {ord : Nat → Nat × Nat}
    {E : List (Nat × Nat)} (inv : BstInv n i p ord E)
    {j k : Nat} (hj : i ≤ j) (hjn : j < n) (hk : i ≤ k) (hkn : k < n)
    (h : (ord j).fst = (ord k).fst) : j = k := by
  have h1 := inv.link1 j hj hjn
  have h2 := inv.link1 k hk hkn
  rw [h] at h1
  omega

theorem BstInv.inv_gt {n i : Nat} {p : Nat → Nat} {ord : Nat → Nat × Nat}
    {E : List (Nat × Nat)} (inv : BstInv n i p ord E) (hi : i < n)
    (hswap : (ord i).fst ≠ i) : i < (ord i).snd := by
  have hb := inv.bounds i (le_refl i) hi
  rcases Nat.eq_or_lt_of_le hb.2.2.1 with he | h
  · exfalso
    have := inv.link2 i (le_refl i) hi
    rw [← he] at this
    exact hswap this
  · exact h

theorem BstInv.step_fix {n i : Nat} {p : Nat → Nat} {ord : Nat → Nat × Nat}
    {E : List (Nat × Nat)} (inv : BstInv n i p ord E)
    (hi : i < n) (hfix : (ord i).fst = i) : BstInv n (i + 1) p ord E where
  sc_le := by have := inv.sc_le; omega
  slots := inv.slots
  placed := by
    intro k hk
    rcases Nat.lt_or_ge k i with h | h
    · exact inv.placed k h
    · have hki : k = i := by omega
      subst hki
      have := inv.moved k (le_refl _) hi
      rwa [hfix] at this
  bounds := by
    intro j hj hjn
    have hb := inv.bounds j (by omega) hjn
    refine ⟨?_, hb.2.1, ?_, hb.2.2.2⟩
    · rcases Nat.eq_or_lt_of_le hb.1 with he | h
      · exfalso
        have := inv.fst_inj (le_of_lt hj) hjn (le_refl i) hi (by rw [← he, hfix])
        omega
      · exact h
    · rcases Nat.eq_or_lt_of_le hb.2.2.1 with he | h
      · exfalso
        have hl2 := inv.link2 j (by omega) hjn
        rw [← he, hfix] at hl2
        omega
      · exact h
  moved := fun j hj hjn => inv.moved j (by omega) hjn
  link1 := fun j hj hjn => inv.link1 j (by omega) hjn
  link2 := fun j hj hjn => inv.link2 j (by omega) hjn
  entries := inv.entries
  rep := by
    intro j hj hjn
    obtain ⟨m, hm1, hm2⟩ := inv.rep j (by omega) hjn
    exact ⟨m, hm1, fun k hk => by have := hm2 k hk; omega⟩

theorem BstInv.step_swap {n i : Nat} {p : Nat → Nat} {ord ord1 ord2 ord3 : Nat → Nat × Nat}
    {E : List (Nat × Nat)} {other inv_i : Nat}
    (inv : BstInv n i p ord E) (hi : i < n)
    (hother : other = (ord i).fst) (hinv : inv_i = (ord i).snd)
    (hswap : other ≠ i)
    (h1 : ord1 = fupd ord E.length (i, other))
    (h2 : ord2 = fupd ord1 inv_i (other, (ord1 inv_i).snd))
    (h3 : ord3 = fupd ord2 other ((ord2 other).fst, inv_i)) :
    BstInv n (i + 1) p ord3 (E ++ [(i, other)]) := by
  have hsc := inv.sc_le
  have hbi := inv.bounds i (le_refl i) hi
  have hoth_gt : i < other := by
    rcases Nat.eq_or_lt_of_le hbi.1 with he | h
    · exact absurd (by rw [hother, ← he]) hswap
    · omega
  have hoth_lt : other < n := by rw [hother]; exact hbi.2.1
  have hinv_gt : i < inv_i := by
    rw [hinv]; exact inv.inv_gt hi (by rw [← hother]; exact hswap)
  have hinv_lt : inv_i < n := by rw [hinv]; exact hbi.2.2.2
  -- the source slot of position `inv_i` is `i`, and the inverse slot of `other` is `i`
  have hfst_inv : (ord inv_i).fst = i := by
    rw [hinv]; exact inv.link2 i (le_refl i) hi
  have hsnd_other : (ord other).snd = i := by
    rw [hother]; exact inv.link1 i (le_refl i) hi
  -- evaluations of the three updates
  have e1 : ∀ k, k ≠ E.length → ord1 k = ord k := by
    intro k hk; rw [h1, fupd_ne _ _ hk]
  have e1sc : ord1 E.length = (i, other) := by rw [h1, fupd_same]
  have e2 : ∀ k, k ≠ inv_i → ord2 k = ord1 k := by
    intro k hk; rw [h2, fupd_ne _ _ hk]
  have e2inv : ord2 inv_i = (other, (ord inv_i).snd) := by
    rw [h2, fupd_same, e1 inv_i (by omega)]
  have e3 : ∀ k, k ≠ other → ord3 k = ord2 k := by
    intro k hk; rw [h3, fupd_ne _ _ hk]
  have e3other : ord3 other = ((ord2 other).fst, inv_i) := by rw [h3, fupd_same]
  -- unified slot views
  have Hlo : ∀ k, k < E.length → ord3 k = ord k := by
    intro k hk
    rw [e3 k (by omega), e2 k (by omega), e1 k (by omega)]
  have Hsc : ord3 E.length = (i, other) := by
    rcases eq_or_ne other E.length with he | hne
    · omega
    · rw [e3 _ (Ne.symm hne), e2 _ (by omega), e1sc]
  have Hhi : ∀ j, i < j → j ≠ inv_i → j ≠ other → ord3 j = ord j := by
    intro j hj hj1 hj2
    rw [e3 j hj2, e2 j hj1, e1 j (by omega)]
  have Hfst3_inv : (ord3 inv_i).fst = other := by
    rcases eq_or_ne inv_i other with he | hne
    · rw [he, e3other]
      show (ord2 other).fst = other
      rw [← he, e2inv]
      simpa using he.symm
    · rw [e3 inv_i hne, e2inv]
  have Hsnd3_other : (ord3 other).snd = inv_i := by rw [e3other]
  have Hfst3_other_ne : inv_i ≠ other → (ord3 other).fst = (ord other).fst := by
    intro hne
    rw [e3other, e2 other (fun h => hne h.symm), e1 other (by omega)]
  have Hfst3_other_eq : inv_i = other → (ord3 other).fst = other := by
    intro he
    rw [e3other, ← he, e2inv]
    simpa using he.symm
  -- facts about untouched high slots
  have Hfst_ne_i : ∀ j, i < j → j < n → j ≠ inv_i → (ord j).fst ≠ i := by
    intro j hj hjn hne hcon
    have := inv.link1 j (by omega) hjn
    rw [hcon] at this
    rw [hinv] at hne
    omega
  have Hsnd_ne_i : ∀ j, i < j → j < n → j ≠ other → (ord j).snd ≠ i := by
    intro j hj hjn hne hcon
    have := inv.link2 j (by omega) hjn
    rw [hcon] at this
    rw [hother] at hne
    omega
  have HtE : ∀ k, traceFun (E ++ [(i, other)]) k = traceFun E (swapFun (i, other) k) := by
    intro k
    rw [traceFun_append]
    rfl
  have hswI : swapFun (i, other) i = other := by simp [swapFun]
  have hswO : swapFun (i, other) other = i := by
    simp [swapFun, hswap]
  have hswN : ∀ k, k ≠ i → k ≠ other → swapFun (i, other) k = k := by
    intro k hk1 hk2; simp [swapFun, hk1, hk2]
  refine ⟨?_, ?_, ?_, ?_, ?_, ?_, ?_, ?_, ?_⟩
  -- sc_le
  · simp only [List.length_append, List.length_cons, List.length_nil]
    omega
  -- slots
  · intro k hk
    simp only [List.length_append, List.length_cons, List.length_nil] at hk
    rcases Nat.lt_or_ge k E.length with h | h
    · rw [Hlo k h, inv.slots k h]
      rw [List.getD_eq_getElem?_getD, List.getD_eq_getElem?_getD,
        List.getElem?_append, if_pos h]
    · have hke : k = E.length := by omega
      subst hke
      rw [Hsc, List.getD_eq_getElem?_getD]
      rw [List.getElem?_append, if_neg (by omega)]
      simp
  -- placed
  · intro k hk
    rw [HtE]
    rcases Nat.lt_or_ge k i with h | h
    · rw [hswN k (by omega) (by omega)]
      exact inv.placed k h
    · have hki : k = i := by omega
      subst hki
      rw [hswI]
      have := inv.moved k (le_refl k) hi
      rw [← hother] at this
      exact this
  -- bounds
  · intro j hj hjn
    rcases eq_or_ne j inv_i with hji | hji
    · subst hji
      constructor
      · rw [Hfst3_inv]; omega
      refine ⟨by rw [Hfst3_inv]; omega, ?_, ?_⟩
      · rcases eq_or_ne j other with he | hne
        · rw [he, Hsnd3_other]; omega
        · rw [e3 j hne, e2inv]
          simp only []
          have hb := inv.bounds j (by omega) hjn
          have := Hsnd_ne_i j (by omega) hjn hne
          omega
      · rcases eq_or_ne j other with he | hne
        · rw [he, Hsnd3_other]; omega
        · rw [e3 j hne, e2inv]
          simp only []
          exact (inv.bounds j (by omega) hjn).2.2.2
    · rcases eq_or_ne j other with hjo | hjo
      · subst hjo
        refine ⟨?_, ?_, by rw [Hsnd3_other]; omega, by rw [Hsnd3_other]; omega⟩
        · rw [Hfst3_other_ne (fun h => hji h.symm)]
          have hb := inv.bounds j (by omega) hjn
          have : (ord j).fst ≠ i := by
            intro hcon
            have := inv.link1 j (by omega) hjn
            rw [hcon] at this
            rw [hinv] at hji
            omega
          omega
        · rw [Hfst3_other_ne (fun h => hji h.symm)]
          exact (inv.bounds j (by omega) hjn).2.1
      · rw [Hhi j (by omega) hji hjo]
        have hb := inv.bounds j (by omega) hjn
        have hne1 := Hfst_ne_i j (by omega) hjn hji
        have hne2 := Hsnd_ne_i j (by omega) hjn hjo
        omega
  -- moved
  · intro j hj hjn
    rw [HtE]
    rcases eq_or_ne j inv_i with hji | hji
    · subst hji
      rw [Hfst3_inv, hswO]
      have := inv.moved j (by omega) hjn
      rw [hfst_inv] at this
      exact this
    · rcases eq_or_ne j other with hjo | hjo
      · subst hjo
        rw [Hfst3_other_ne (fun h => hji h.symm)]
        have hne_i : (ord j).fst ≠ i := by
          intro hcon
          have := inv.link1 j (by omega) hjn
          rw [hcon] at this
          rw [hinv] at hji
          omega
        have hne_o : (ord j).fst ≠ j := by
          intro hcon
          have := inv.fst_inj (le_of_lt hoth_gt) hjn (le_refl i) hi
            (by rw [hcon, hother])
          omega
        rw [hswN _ hne_i hne_o]
        exact inv.moved j (by omega) hjn
      · rw [Hhi j (by omega) hji hjo]
        have hne_i := Hfst_ne_i j (by omega) hjn hji
        have hne_o : (ord j).fst ≠ other := by
          intro hcon
          have := inv.fst_inj (by omega : i ≤ j) hjn (le_refl i) hi
            (by rw [hcon, hother])
          omega
        rw [hswN _ hne_i hne_o]
        exact inv.moved j (by omega) hjn
  -- link1
  · intro j hj hjn
    rcases eq_or_ne j inv_i with hji | hji
    · subst hji
      rw [Hfst3_inv, Hsnd3_other]
    · rcases eq_or_ne j other with hjo | hjo
      · subst hjo
        rw [Hfst3_other_ne (fun h => hji h.symm)]
        set w := (ord j).fst with hw
        have hl1 := inv.link1 j (by omega) hjn
        have hwb := inv.bounds j (by omega) hjn
        have hw_ne_i : w ≠ i := by
          intro hcon
          have := inv.link1 j (by omega) hjn
          rw [← hw, hcon] at this
          rw [hinv] at hji
          omega
        have hw_ne_o : w ≠ j := by
          intro hcon
          have := inv.fst_inj (le_of_lt hoth_gt) hjn (le_refl i) hi
            (by rw [← hw, hcon, hother])
          omega
        rw [← hw] at hl1
        rcases eq_or_ne w inv_i with hwi | hwi
        · rw [hwi] at hl1
          rw [hwi, e3 inv_i (fun h => hji h.symm), e2inv]
          exact hl1
        · rw [Hhi w (by omega) hwi hw_ne_o]
          exact hl1
      · rw [Hhi j (by omega) hji hjo]
        set w := (ord j).fst with hw
        have hl1 := inv.link1 j (by omega) hjn
        have hwb := inv.bounds j (by omega) hjn
        have hw_ne_i := Hfst_ne_i j (by omega) hjn hji
        have hw_ne_o : w ≠ other := by
          intro hcon
          have := inv.fst_inj (by omega : i ≤ j) hjn (le_refl i) hi
            (by rw [← hw, hcon, hother])
          omega
        rw [← hw] at hl1
        rcases eq_or_ne w inv_i with hwi | hwi
        · rw [hwi] at hl1
          rw [hwi, e3 inv_i (fun h => hw_ne_o (hwi ▸ h)), e2inv]
          exact hl1
        · rw [Hhi w (by omega) hwi hw_ne_o]
          exact hl1
  -- link2
  · intro j hj hjn
    rcases eq_or_ne j other with hjo | hjo
    · subst hjo
      rw [Hsnd3_other, Hfst3_inv]
    · rcases eq_or_ne j inv_i with hji | hji
      · subst hji
        rw [e3 j hjo, e2inv]
        simp only []
        set u := (ord j).snd with hu
        have hl2 := inv.link2 j (by omega) hjn
        have hub := inv.bounds j (by omega) hjn
        have hu_ne_i : u ≠ i := by
          intro hcon
          rw [← hu, hcon, ← hother] at hl2
          omega
        have hu_ne_inv : u ≠ j := by
          intro hcon
          rw [← hu, hcon] at hl2
          rw [hfst_inv] at hl2
          omega
        rw [← hu] at hl2
        rcases eq_or_ne u other with huo | huo
        · rw [huo] at hl2
          rw [huo, Hfst3_other_ne hjo]
          exact hl2
        · rw [Hhi u (by omega) hu_ne_inv huo]
          exact hl2
      · rw [Hhi j (by omega) hji hjo]
        set u := (ord j).snd with hu
        have hl2 := inv.link2 j (by omega) hjn
        have hub := inv.bounds j (by omega) hjn
        have hu_ne_i := Hsnd_ne_i j (by omega) hjn hjo
        have hu_ne_inv : u ≠ inv_i := by
          intro hcon
          rw [← hu, hcon, hfst_inv] at hl2
          omega
        rw [← hu] at hl2
        rcases eq_or_ne u other with huo | huo
        · rcases eq_or_ne inv_i other with hioeq | hione
          · rw [huo, ← hioeq] at hu_ne_inv
            exact absurd rfl hu_ne_inv
          · rw [huo] at hl2
            rw [huo, Hfst3_other_ne hione]
            exact hl2
        · rw [Hhi u (by omega) hu_ne_inv huo]
          exact hl2
  -- entries
  · intro s hs
    rcases List.mem_append.mp hs with h | h
    · exact inv.entries s h
    · simp only [List.mem_singleton] at h
      subst h
      exact ⟨hi, hoth_lt⟩
  -- rep
  · intro j hj hjn
    rcases eq_or_ne j inv_i with hji | hji
    · subst hji
      obtain ⟨m1, hm1a, hm1b⟩ := inv.rep j (by omega) hjn
      obtain ⟨m2, hm2a, hm2b⟩ := inv.rep i (le_refl i) hi
      rw [hfst_inv] at hm1a
      rw [← hother] at hm2a
      refine ⟨m1 + 1 + m2, ?_, ?_⟩
      · rw [Hfst3_inv]
        rw [show m1 + 1 + m2 + 1 = (m2 + 1) + (m1 + 1) from by omega,
          Function.iterate_add_apply, ← hm1a, ← hm2a]
      · intro k hk
        rcases Nat.lt_or_ge k m1 with h | h
        · have := hm1b k h
          omega
        · rcases Nat.eq_or_lt_of_le h with he | hlt
          · rw [← he]
            omega
          · have hk2 : k - (m1 + 1) < m2 := by omega
            have := hm2b (k - (m1 + 1)) hk2
            rw [show k + 1 = (k - (m1 + 1) + 1) + (m1 + 1) from by omega,
              Function.iterate_add_apply, ← hm1a]
            omega
    · obtain ⟨m, hma, hmb⟩ := inv.rep j (by omega) hjn
      rcases eq_or_ne j other with hjo | hjo
      · subst hjo
        refine ⟨m, ?_, fun k hk => by have := hmb k hk; omega⟩
        rw [Hfst3_other_ne (fun h => hji h.symm)]
        exact hma
      · refine ⟨m, ?_, fun k hk => by have := hmb k hk; omega⟩
        rw [Hhi j (by omega) hji hjo]
        exact hma

theorem bstMain_run {n : Nat} {p : Nat → Nat} (hp : PermOnRange p n) :
    ∀ fuel i ord E, i + fuel = n → BstInv n i p ord E →
    ∃ E', BstInv n n p (bstMainLoop fuel i E.length ord).fst E' ∧
      E'.length = (bstMainLoop fuel i E.length ord).snd ∧
      E'.length = E.length +
        (List.range' i fuel).countP (fun j => !(decide (isCycleMax p n j))) := by
  intro fuel
  induction fuel with
  | zero =>
    intro i ord E hin inv
    refine ⟨E, ?_, rfl, by simp⟩
    have : i = n := by omega
    subst this
    exact inv
  | succ fuel ih =>
    intro i ord E hin inv
    have hi : i < n := by omega
    have hcount : List.range' i (fuel + 1) = i :: List.range' (i + 1) fuel :=
      List.range'_succ i fuel 1
    rcases eq_or_ne (ord i).fst i with hfix | hswap
    · -- no swap at i
      have hstep : bstMainLoop (fuel + 1) i E.length ord
          = bstMainLoop fuel (i + 1) E.length ord := by
        show (if i ≠ (ord i).fst then _ else _) = _
        rw [if_neg (by omega)]
      rw [hstep]
      obtain ⟨E', hE1, hE2, hE3⟩ := ih (i + 1) ord E (by omega) (inv.step_fix hi hfix)
      refine ⟨E', hE1, hE2, ?_⟩
      have hmax : isCycleMax p n i := by
        obtain ⟨m, hm1, hm2⟩ := inv.rep i (le_refl i) hi
        have hge : i ≤ (ord i).fst := (inv.bounds i (le_refl i) hi).1
        rw [isCycleMax_iff_forall hp hi]
        exact (rep_self_iff_cycleMax hm1 hm2 hge).mp hfix
      rw [hcount, List.countP_cons]
      simp [hmax, hE3]
    · -- swap at i
      have hinvgt : i < (ord i).snd := inv.inv_gt hi hswap
      have hstep : bstMainLoop (fuel + 1) i E.length ord
          = bstMainLoop fuel (i + 1) (E.length + 1)
              (fupd (fupd (fupd ord E.length (i, (ord i).fst))
                      (ord i).snd
                      ((ord i).fst, ((fupd ord E.length (i, (ord i).fst)) (ord i).snd).snd))
                    (ord i).fst
                    (((fupd (fupd ord E.length (i, (ord i).fst))
                        (ord i).snd
                        ((ord i).fst, ((fupd ord E.length (i, (ord i).fst)) (ord i).snd).snd))
                       (ord i).fst).fst, (ord i).snd)) := by
        show (if i ≠ (ord i).fst then _ else _) = _
        rw [if_pos (fun h => hswap h.symm)]
        show bstMainLoop fuel (i + 1) (E.length + 1)
            (if i < (ord i).snd then _ else _) = _
        rw [if_pos hinvgt]
      rw [hstep]
      have hinv' := inv.step_swap hi rfl rfl (fun h => hswap h) rfl rfl rfl
      have hlen : (E ++ [(i, (ord i).fst)]).length = E.length + 1 := by simp
      obtain ⟨E', hE1, hE2, hE3⟩ := ih (i + 1) _ (E ++ [(i, (ord i).fst)]) (by omega) hinv'
      rw [hlen] at hE1 hE2 hE3
      refine ⟨E', hE1, hE2, ?_⟩
      have hmax : ¬ isCycleMax p n i := by
        obtain ⟨m, hm1, hm2⟩ := inv.rep i (le_refl i) hi
        have hge : i ≤ (ord i).fst := (inv.bounds i (le_refl i) hi).1
        rw [isCycleMax_iff_forall hp hi]
        intro hall
        exact hswap ((rep_self_iff_cycleMax hm1 hm2 hge).mpr hall)
      rw [hcount, List.countP_cons]
      simp only [hmax, decide_eq_true_eq, decide_eq_false_iff_not]
      rw [hE3]
      simp [hmax]
      omega

theorem permOnRange_of_perm {idxs : List Nat} {n : Nat} (h : idxs.Perm (List.range n)) :
    PermOnRange (fun j => idxs.getD j 0) n := by
  have hlen : idxs.length = n := by simpa using h.length_eq
  have hnd : idxs.Nodup := h.symm.nodup (List.nodup_range n)
  refine ⟨?_, ?_, ?_⟩
  · intro j hj
    have hmem : idxs.getD j 0 ∈ idxs := by
      rw [List.getD_eq_getElem _ _ (by omega)]
      exact List.getElem_mem _
    simpa using h.mem_iff.mp hmem
  · intro j k hj hk he
    simp only [] at he
    rw [List.getD_eq_getElem idxs 0 (show j < idxs.length by omega),
      List.getD_eq_getElem idxs 0 (show k < idxs.length by omega)] at he
    exact hnd.getElem_inj_iff.mp he
  · intro m hm
    have hmem : m ∈ idxs := h.mem_iff.mpr (by simpa using hm)
    obtain ⟨k, hk, he⟩ := List.getElem_of_mem hmem
    exact ⟨k, by omega, by simp only []; rw [List.getD_eq_getElem _ _ hk]; exact he⟩

theorem bstInitial {n : Nat} {idxs : List Nat} (hperm : idxs.Perm (List.range n)) :
    BstInv n 0 (fun j => idxs.getD j 0) (bstRevLoop n 0 (orderingOf idxs)) [] := by
  have hp := permOnRange_of_perm hperm
  set p : Nat → Nat := fun j => idxs.getD j 0 with hpdef
  have hfst : ∀ j, ((bstRevLoop n 0 (orderingOf idxs)) j).fst = p j := by
    intro j
    rw [bstRevLoop_fst]
    rfl
  have hinj : ∀ k k', 0 ≤ k → k < 0 + n → 0 ≤ k' → k' < 0 + n →
      ((orderingOf idxs) k).fst = ((orderingOf idxs) k').fst → k = k' := by
    intro k k' _ hk _ hk' he
    exact hp.2.1 k k' (by omega) (by omega) he
  have hlink : ∀ j, j < n → ((bstRevLoop n 0 (orderingOf idxs)) (p j)).snd = j := by
    intro j hj
    have := bstRevLoop_link n 0 (orderingOf idxs) j (by omega) (by omega) hinj
    exact this
  refine ⟨by simp, ?_, ?_, ?_, ?_, ?_, ?_, ?_, ?_⟩
  · intro k hk; simp at hk
  · intro k hk; omega
  · intro j _ hjn
    obtain ⟨j', hj', he⟩ := hp.2.2 j hjn
    refine ⟨by omega, by rw [hfst]; exact hp.1 j hjn, ?_, ?_⟩
    · omega
    · rw [← he, hlink j' hj']
      omega
  · intro j _ hjn
    rw [hfst]
    rfl
  · intro j _ hjn
    rw [hfst]
    exact hlink j hjn
  · intro j _ hjn
    obtain ⟨j', hj', he⟩ := hp.2.2 j hjn
    rw [← he, hlink j' hj', hfst, he]
  · intro s hs; simp at hs
  · intro j _ hjn
    exact ⟨0, by rw [hfst]; simp, by omega⟩

theorem map_range_eq_of_getD {f : Nat → Nat × Nat} {E : List (Nat × Nat)}
    (h : ∀ k, k < E.length → f k = E.getD k (0, 0)) :
    (List.range E.length).map f = E := by
  apply List.ext_getElem (by simp)
  intro k h1 h2
  simp only [List.getElem_map, List.getElem_range]
  rw [h k h2, List.getD_eq_getElem?_getD, List.getElem?_eq_getElem h2]
  rfl

theorem build_swap_trace_spec {n : Nat} {idxs : List Nat}
    (hperm : idxs.Perm (List.range n)) :
    (∀ s ∈ build_swap_trace n (orderingOf idxs), s.fst < n ∧ s.snd < n) ∧
    (∀ k, k < n → traceFun (build_swap_trace n (orderingOf idxs)) k = idxs.getD k 0) ∧
    (build_swap_trace n (orderingOf idxs)).length =
      (List.range' 0 n).countP
        (fun j => !(decide (isCycleMax (fun m => idxs.getD m 0) n j))) := by
  have hp := permOnRange_of_perm hperm
  have inv0 := bstInitial hperm
  obtain ⟨E', hInv, hLen, hCount⟩ :=
    bstMain_run hp n 0 (bstRevLoop n 0 (orderingOf idxs)) [] (by omega) inv0
  simp only [List.length_nil] at hLen hCount hInv
  have hext : build_swap_trace n (orderingOf idxs) = E' := by
    unfold build_swap_trace
    simp only []
    rw [← hLen]
    exact map_range_eq_of_getD hInv.slots
  rw [hext]
  exact ⟨hInv.entries, fun k hk => hInv.placed k hk, by omega⟩

theorem getRow_length {α : Type} {cols rows : Nat} {d : List α} (r : Nat)
    (hlen : d.length = rows * cols) (hr : r < rows) : (getRow cols d r).length = cols := by
  unfold getRow
  rw [List.length_take, List.length_drop, hlen]
  have h1 : (r + 1) * cols ≤ rows * cols := Nat.mul_le_mul_right cols (by omega)
  have h2 : (r + 1) * cols = r * cols + cols := by ring
  omega

theorem getRow_mapRowsAux {α : Type} (cols : Nat) (f : List α → List α)
    (hf : ∀ l : List α, (f l).length = l.length) :
    ∀ (rows : Nat) (d : List α) (r : Nat), r < rows → d.length = rows * cols →
      getRow cols (mapRowsAux cols f rows d) r = f (getRow cols d r) := by
  intro rows
  induction rows with
  | zero => intro d r hr _; omega
  | succ rows ih =>
    intro d r hr hlen
    have hA : (f (d.take cols)).length = cols := by
      rw [hf, List.length_take]
      have : cols ≤ d.length := by
        rw [hlen]
        have : 1 * cols ≤ (rows + 1) * cols := Nat.mul_le_mul_right cols (by omega)
        omega
      omega
    show getRow cols (f (d.take cols) ++ mapRowsAux cols f rows (d.drop cols)) r = _
    rcases r with _ | r
    · unfold getRow
      simp only [Nat.zero_mul, List.drop_zero]
      rw [List.take_append_eq_append_take, hA, Nat.sub_self, List.take_zero,
        List.append_nil]
      exact List.take_of_length_le (le_of_eq hA)
    · unfold getRow
      have hsplit : (r + 1) * cols = (f (d.take cols)).length + r * cols := by
        rw [hA]; ring
      rw [hsplit, List.drop_append]
      have hd : d.length - cols = rows * cols := by
        rw [hlen]; ring_nf; omega
      have := ih (d.drop cols) r (by omega) (by rw [List.length_drop]; omega)
      unfold getRow at this
      rw [this, List.drop_drop, hA]

theorem enum_pairwise_snd {α : Type} {S : α → α → Prop} {l : List α}
    (h : l.Pairwise S) : l.enum.Pairwise (fun a b => S a.snd b.snd) := by
  have h' : (l.enum.map Prod.snd).Pairwise S := by
    rw [List.enum_map_snd]; exact h
  exact List.pairwise_map.mp h'

theorem countP_three_split (l : List Nat) (P Q : Nat → Bool)
    (h : ∀ x ∈ l, P x = true → Q x = true) :
    l.countP (fun j => !(Q j)) + l.countP P
      + l.countP (fun j => !(P j) && Q j) = l.length := by
  induction l with
  | nil => simp
  | cons x l ih =>
    have hx := h x (by simp)
    have hrest : ∀ y ∈ l, P y = true → Q y = true := fun y hy => h y (by simp [hy])
    have := ih hrest
    simp only [List.countP_cons, List.length_cons]
    rcases hP : P x <;> rcases hQ : Q x <;> simp_all <;> omega

/-- C7: for every grid (with a well-formed buffer), every valid row index
`row`, and every total comparison function (transitive, and never
reporting `gt` both ways), `sort_by_row(row, compare)` succeeds, leaves
the dimensions unchanged, permutes the columns as whole units — every
row `r` is reordered by the same column permutation `sortPermOfRow` —
and afterwards the elements of row `row` are in non-decreasing order
under the comparison. -/
theorem sort_by_row_spec {α : Type} [Inhabited α] (t : TooDee α) (row : Nat)
    (compare : α → α → Ordering)
    (hwf : t.data.length = t.num_rows * t.num_cols)
    (hrow : row < t.num_rows)
    (htrans : ∀ a b c, compare a b ≠ Ordering.gt → compare b c ≠ Ordering.gt →
      compare a c ≠ Ordering.gt)
    (htotal : ∀ a b, compare a b = Ordering.gt → compare b a ≠ Ordering.gt) :
    ∃ t', sort_by_row t row compare = some t' ∧
      t'.num_cols = t.num_cols ∧ t'.num_rows = t.num_rows ∧
      PermOnRange (sortPermOfRow t row compare) t.num_cols ∧
      (∀ r, r < t.num_rows → getRow t.num_cols t'.data r =
        (List.range t.num_cols).map fun j =>
          (getRow t.num_cols t.data r).getD (sortPermOfRow t row compare j) default) ∧
      List.Sorted (fun a b => compare a b ≠ Ordering.gt)
        (getRow t.num_cols t'.data row) := by
  have hrlen : (getRow t.num_cols t.data row).length = t.num_cols :=
    getRow_length row hwf hrow
  have hperm1 : (sortPairs compare (getRow t.num_cols t.data row).enum).Perm
      (getRow t.num_cols t.data row).enum := List.perm_insertionSort _ _
  have hpermIdx : ((sortPairs compare (getRow t.num_cols t.data row).enum).map
      Prod.fst).Perm (List.range t.num_cols) := by
    have := hperm1.map Prod.fst
    rwa [List.enum_map_fst, hrlen] at this
  have hp := permOnRange_of_perm hpermIdx
  have hplen : ((sortPairs compare (getRow t.num_cols t.data row).enum).map
      Prod.fst).length = t.num_cols := by simpa using hpermIdx.length_eq
  have hslen : (sortPairs compare (getRow t.num_cols t.data row).enum).length
      = t.num_cols := by simpa using hplen
  have hteq : sortTraceOfRow t row compare =
      build_swap_trace t.num_cols
        (orderingOf ((sortPairs compare (getRow t.num_cols t.data row).enum).map
          Prod.fst)) := by
    unfold sortTraceOfRow
    rw [hslen]
  obtain ⟨hEnt, hFun, _⟩ := build_swap_trace_spec hpermIdx
  rw [← hteq] at hEnt hFun
  have hTlen : ∀ l : List α, (applyTrace (sortTraceOfRow t row compare) l).length
      = l.length := fun l => applyTrace_length _ _
  have hRows : ∀ r, r < t.num_rows →
      getRow t.num_cols
        (mapRowsAux t.num_cols (applyTrace (sortTraceOfRow t row compare))
          t.num_rows t.data) r
      = applyTrace (sortTraceOfRow t row compare) (getRow t.num_cols t.data r) :=
    fun r hr => getRow_mapRowsAux t.num_cols _ hTlen t.num_rows t.data r hr hwf
  have hRowPerm : ∀ r, r < t.num_rows →
      applyTrace (sortTraceOfRow t row compare) (getRow t.num_cols t.data r) =
      (List.range t.num_cols).map fun j =>
        (getRow t.num_cols t.data r).getD (sortPermOfRow t row compare j) default := by
    intro r hr
    have hlr : (getRow t.num_cols t.data r).length = t.num_cols := getRow_length r hwf hr
    apply List.ext_getElem
    · rw [applyTrace_length, hlr]
      simp
    intro k h1 h2
    have hk : k < t.num_cols := by
      rw [applyTrace_length, hlr] at h1
      exact h1
    have hbnd : ∀ s ∈ sortTraceOfRow t row compare,
        s.fst < (getRow t.num_cols t.data r).length ∧
        s.snd < (getRow t.num_cols t.data r).length := by
      intro s hs
      have := hEnt s hs
      omega
    have e1 := getElem?_applyTrace (sortTraceOfRow t row compare)
      (getRow t.num_cols t.data r) hbnd k
    rw [hFun k hk] at e1
    rw [show ((sortPairs compare (getRow t.num_cols t.data row).enum).map
      Prod.fst).getD k 0 = sortPermOfRow t row compare k from rfl] at e1
    have hpk : sortPermOfRow t row compare k < t.num_cols := hp.1 k hk
    rw [List.getElem?_eq_getElem h1,
      List.getElem?_eq_getElem (show sortPermOfRow t row compare k
        < (getRow t.num_cols t.data r).length from by omega)] at e1
    have e2 := Option.some.inj e1
    rw [e2]
    simp only [List.getElem_map, List.getElem_range]
    rw [List.getD_eq_getElem _ _ (show sortPermOfRow t row compare k
      < (getRow t.num_cols t.data r).length from by omega)]
  haveI instTr : IsTrans (Nat × α) (fun a b => compare a.snd b.snd ≠ Ordering.gt) :=
    ⟨fun a b c hab hbc => htrans _ _ _ hab hbc⟩
  haveI instTot : IsTotal (Nat × α) (fun a b => compare a.snd b.snd ≠ Ordering.gt) := by
    constructor
    intro a b
    cases h : compare a.snd b.snd with
    | lt => left; simp [h]
    | eq => left; simp [h]
    | gt => right; exact htotal _ _ h
  have hsortedPairs : List.Sorted (fun a b : Nat × α => compare a.snd b.snd ≠ Ordering.gt)
      (sortPairs compare (getRow t.num_cols t.data row).enum) :=
    List.sorted_insertionSort _ _
  have hmain : applyTrace (sortTraceOfRow t row compare) (getRow t.num_cols t.data row)
      = (sortPairs compare (getRow t.num_cols t.data row).enum).map Prod.snd := by
    apply List.ext_getElem
    · rw [applyTrace_length, hrlen]
      simp [hslen]
    intro k h1 h2
    have hk : k < t.num_cols := by
      rw [applyTrace_length, hrlen] at h1
      exact h1
    have hks : k < (sortPairs compare (getRow t.num_cols t.data row).enum).length := by
      omega
    have hmem : (sortPairs compare (getRow t.num_cols t.data row).enum)[k]
        ∈ (getRow t.num_cols t.data row).enum :=
      hperm1.mem_iff.mp (List.getElem_mem hks)
    have hidx := List.mem_enum_iff_getElem?.mp hmem
    have hpk : sortPermOfRow t row compare k =
        ((sortPairs compare (getRow t.num_cols t.data row).enum)[k]).fst := by
      unfold sortPermOfRow
      rw [List.getD_eq_getElem _ _ (show k < ((sortPairs compare
        (getRow t.num_cols t.data row).enum).map Prod.fst).length from by
          rw [hplen]; omega)]
      rw [List.getElem_map]
    have hbnd : ∀ s ∈ sortTraceOfRow t row compare,
        s.fst < (getRow t.num_cols t.data row).length ∧
        s.snd < (getRow t.num_cols t.data row).length := by
      intro s hs
      have := hEnt s hs
      omega
    have e1 := getElem?_applyTrace (sortTraceOfRow t row compare)
      (getRow t.num_cols t.data row) hbnd k
    rw [hFun k hk] at e1
    rw [show ((sortPairs compare (getRow t.num_cols t.data row).enum).map
      Prod.fst).getD k 0 = sortPermOfRow t row compare k from rfl] at e1
    rw [hpk, hidx] at e1
    rw [List.getElem?_eq_getElem h1] at e1
    have e2 := Option.some.inj e1
    rw [e2, List.getElem_map]
  refine ⟨TooDee.mk (mapRowsAux t.num_cols
      (applyTrace (sortTraceOfRow t row compare)) t.num_rows t.data) t.num_rows t.num_cols,
    by unfold sort_by_row; rw [if_pos hrow], rfl, rfl, hp, ?_, ?_⟩
  · intro r hr
    show getRow t.num_cols (mapRowsAux t.num_cols
      (applyTrace (sortTraceOfRow t row compare)) t.num_rows t.data) r = _
    rw [hRows r hr]
    exact hRowPerm r hr
  · show List.Sorted _ (getRow t.num_cols (mapRowsAux t.num_cols
      (applyTrace (sortTraceOfRow t row compare)) t.num_rows t.data) row)
    rw [hRows row hrow, hmain]
    exact List.pairwise_map.mpr hsortedPairs

/-- C8: the swap trace built for a sort contains the minimum possible
number of element swaps for the target ordering: its length is
`n - fixed_points - nontrivial_cycles` for the permutation induced by
the sort (each cycle of length `L ≥ 2` costs exactly `L - 1` swaps and
each fixed point costs none); in particular sorting an already-sorted
row produces an empty swap trace. -/
theorem swap_trace_minimal {α : Type} (t : TooDee α) (row : Nat)
    (compare : α → α → Ordering)
    (hwf : t.data.length = t.num_rows * t.num_cols)
    (hrow : row < t.num_rows) :
    (sortTraceOfRow t row compare).length =
      t.num_cols - fixedPointCount (sortPermOfRow t row compare) t.num_cols
        - nontrivialCycleCount (sortPermOfRow t row compare) t.num_cols ∧
    (List.Sorted (fun a b => compare a b ≠ Ordering.gt) (getRow t.num_cols t.data row) →
      sortTraceOfRow t row compare = []) := by
  have hrlen : (getRow t.num_cols t.data row).length = t.num_cols :=
    getRow_length row hwf hrow
  have hperm1 : (sortPairs compare (getRow t.num_cols t.data row).enum).Perm
      (getRow t.num_cols t.data row).enum := List.perm_insertionSort _ _
  have hpermIdx : ((sortPairs compare (getRow t.num_cols t.data row).enum).map
      Prod.fst).Perm (List.range t.num_cols) := by
    have := hperm1.map Prod.fst
    rwa [List.enum_map_fst, hrlen] at this
  have hslen : (sortPairs compare (getRow t.num_cols t.data row).enum).length
      = t.num_cols := by
    have := hperm1.length_eq
    rwa [List.enum_length, hrlen] at this
  have hteq : sortTraceOfRow t row compare =
      build_swap_trace t.num_cols
        (orderingOf ((sortPairs compare (getRow t.num_cols t.data row).enum).map
          Prod.fst)) := by
    unfold sortTraceOfRow
    rw [hslen]
  obtain ⟨_, _, hCnt⟩ := build_swap_trace_spec hpermIdx
  rw [← hteq] at hCnt
  rw [show (fun m => ((sortPairs compare (getRow t.num_cols t.data row).enum).map
    Prod.fst).getD m 0) = sortPermOfRow t row compare from rfl] at hCnt
  rw [← List.range_eq_range'] at hCnt
  have hsplit := countP_three_split (List.range t.num_cols)
    (fun j => decide (sortPermOfRow t row compare j = j))
    (fun j => decide (isCycleMax (sortPermOfRow t row compare) t.num_cols j))
    (by
      intro x _ hfix
      simp only [decide_eq_true_eq] at hfix ⊢
      intro k _
      rw [Function.iterate_fixed hfix])
  constructor
  · unfold fixedPointCount nontrivialCycleCount
    rw [hCnt]
    have hc1 : (List.range t.num_cols).countP
        (fun j => decide (sortPermOfRow t row compare j ≠ j) &&
          decide (isCycleMax (sortPermOfRow t row compare) t.num_cols j)) =
        (List.range t.num_cols).countP
        (fun j => !(decide (sortPermOfRow t row compare j = j)) &&
          decide (isCycleMax (sortPermOfRow t row compare) t.num_cols j)) := by
      apply List.countP_congr
      intro a _
      simp
    rw [hc1]
    have hlen : (List.range t.num_cols).length = t.num_cols := by simp
    simp only [] at hsplit
    omega
  · intro hsortedRow
    have hEnumSorted : ((getRow t.num_cols t.data row).enum).Sorted
        (fun a b : Nat × α => compare a.snd b.snd ≠ Ordering.gt) :=
      enum_pairwise_snd hsortedRow
    have hfixSort : sortPairs compare (getRow t.num_cols t.data row).enum =
        (getRow t.num_cols t.data row).enum :=
      List.Sorted.insertionSort_eq hEnumSorted
    have hpid : ∀ j, j < t.num_cols → sortPermOfRow t row compare j = j := by
      intro j hj
      unfold sortPermOfRow
      rw [hfixSort, List.enum_map_fst, hrlen]
      rw [List.getD_eq_getElem _ _ (by simpa using hj)]
      exact List.getElem_range j _
    have hzero : (sortTraceOfRow t row compare).length = 0 := by
      rw [hCnt]
      rw [List.countP_eq_zero]
      intro a ha
      simp only [List.mem_range] at ha
      simp only [Bool.not_eq_true', decide_eq_false_iff_not, Decidable.not_not]
      have : isCycleMax (sortPermOfRow t row compare) t.num_cols a := by
        intro k _
        rw [Function.iterate_fixed (hpid a ha)]
      simp [this]
    exact List.length_eq_zero.mp hzero


/-- Witness for `sort_by_row_spec`: sorting row 0 of the concrete grid
`gridC7` with the natural-number comparison. -/
theorem sort_by_row_spec_witness :
    ∃ t', sort_by_row gridC7 0 compare = some t' ∧
      List.Sorted (fun a b => compare a b ≠ Ordering.gt)
        (getRow gridC7.num_cols t'.data 0) := by
  obtain ⟨t', h1, _, _, _, _, h6⟩ := sort_by_row_spec gridC7 0 compare
    (by decide) (by decide)
    (by
      intro a b c hab hbc hac
      rw [Nat.compare_eq_gt] at hac
      have h1 : ¬ b < a := fun h => hab (Nat.compare_eq_gt.mpr h)
      have h2 : ¬ c < b := fun h => hbc (Nat.compare_eq_gt.mpr h)
      omega)
    (by
      intro a b h hba
      rw [Nat.compare_eq_gt] at h hba
      omega)
  exact ⟨t', h1, h6⟩

/-- Witness for `swap_trace_minimal`: the trace for row 0 of `gridC7`
(a single 3-cycle, so 2 swaps out of 3 columns). -/
theorem swap_trace_minimal_witness :
    (sortTraceOfRow gridC7 0 compare).length =
      gridC7.num_cols
        - fixedPointCount (sortPermOfRow gridC7 0 compare) gridC7.num_cols
        - nontrivialCycleCount (sortPermOfRow gridC7 0 compare) gridC7.num_cols :=
  (swap_trace_minimal gridC7 0 compare (by decide) (by decide)).1

/-- The prefix-plus-segment part of a `ptrCopy` has length `dest + len`
when both regions lie inside the buffer. -/
theorem ptrCopy_parts {α : Type} (buf : List α) (src dest len : Nat)
    (hd : dest ≤ buf.length) (hs : src + len ≤ buf.length) :
    (buf.take dest ++ (buf.drop src).take len).length = dest + len := by
  simp only [List.length_append, List.length_take, List.length_drop]
  omega

/-- An in-bounds `ptrCopy` preserves the buffer length. -/
theorem ptrCopy_length {α : Type} (buf : List α) (src dest len : Nat)
    (hd : dest + len ≤ buf.length) (hs : src + len ≤ buf.length) :
    (ptrCopy buf src dest len).length = buf.length := by
  unfold ptrCopy
  simp only [List.length_append, List.length_take, List.length_drop]
  omega

/-- Reading a `ptrCopy` result up to the end of the written region yields
the untouched prefix followed by the copied segment. -/
theorem ptrCopy_take_exact {α : Type} (buf : List α) (src dest len : Nat)
    (hd : dest ≤ buf.length) (hs : src + len ≤ buf.length) :
    (ptrCopy buf src dest len).take (dest + len) =
      buf.take dest ++ (buf.drop src).take len := by
  unfold ptrCopy
  exact List.take_left' (ptrCopy_parts buf src dest len hd hs)

/-- A `ptrCopy` leaves everything at or beyond `dest + len` untouched. -/
theorem ptrCopy_drop_high {α : Type} (buf : List α) (src dest len N : Nat)
    (hd : dest ≤ buf.length) (hs : src + len ≤ buf.length) (hN : dest + len ≤ N) :
    (ptrCopy buf src dest len).drop N = buf.drop N := by
  have h1 : (ptrCopy buf src dest len).drop N =
      (buf.drop (dest + len)).drop (N - (dest + len)) := by
    unfold ptrCopy
    conv_lhs =>
      rw [show N = (buf.take dest ++ (buf.drop src).take len).length + (N - (dest + len)) from by
        rw [ptrCopy_parts buf src dest len hd hs]; omega]
    rw [List.drop_append]
  rw [h1, List.drop_drop]
  congr 1
  omega

/-- Splitting one `cols`-sized row around the erased index `i`: the part
before the hole plus the next `cols - 1` surviving elements regroup as
the erased row followed by the start of the next row. -/
theorem eraseIdx_chunk {α : Type} (X : List α) (cols i : Nat) (hi : i < cols) :
    X.take i ++ (X.drop (i + 1)).take (cols - 1) =
      (X.take cols).eraseIdx i ++ (X.drop cols).take i := by
  rw [List.eraseIdx_eq_take_drop_succ, List.take_take, Nat.min_eq_left (by omega)]
  rw [List.drop_take]
  rw [show cols - 1 = (cols - (i + 1)) + i from by omega, List.take_add]
  rw [List.append_assoc]
  congr 2
  rw [List.drop_drop]
  congr 2
  omega

/-- `removeColSpec` over `s + 1` rows is `removeColSpec` over `s` rows
followed by row `s` with its `i`-th element erased. -/
theorem removeColSpec_snoc {α : Type} (cols i : Nat) :
    ∀ (s : Nat) (D : List α),
      removeColSpec cols i (s + 1) D =
        removeColSpec cols i s D ++ ((D.drop (s * cols)).take cols).eraseIdx i := by
  intro s
  induction s with
  | zero =>
    intro D
    show (D.take cols).eraseIdx i ++ removeColSpec cols i 0 (D.drop cols) = _
    simp [removeColSpec]
  | succ s ih =>
    intro D
    show (D.take cols).eraseIdx i ++ removeColSpec cols i (s + 1) (D.drop cols) = _
    rw [ih (D.drop cols)]
    show _ = (D.take cols).eraseIdx i ++ removeColSpec cols i s (D.drop cols) ++ _
    rw [List.append_assoc]
    congr 2
    rw [List.drop_drop]
    congr 3
    ring

/-- Removing the only column of a one-column grid leaves nothing. -/
theorem removeColSpec_of_cols_one {α : Type} :
    ∀ (rows : Nat) (data : List α), removeColSpec 1 0 rows data = [] := by
  intro rows
  induction rows with
  | zero => intro data; rfl
  | succ rows ih =>
    intro data
    show (data.take 1).eraseIdx 0 ++ removeColSpec 1 0 rows (data.drop 1) = []
    rw [ih]
    rcases data with _ | ⟨x, xs⟩ <;> simp

/-- Invariant of the `DrainCol::drop` compaction loop: after the whole
loop the buffer starts with the first `rows - 1` compacted rows (plus
the pre-hole part of the last row) and the tail beyond the last hole is
still pristine. -/
theorem drainColLoop_spec {α : Type} (cols i rows : Nat) (data : List α)
    (hi : i < cols) :
    ∀ (k s : Nat) (buf : List α), s + k = rows - 1 →
      buf.length = rows * cols →
      buf.take (i + s * (cols - 1)) =
        removeColSpec cols i s data ++ (data.drop (s * cols)).take i →
      buf.drop (i + 1 + s * cols) = data.drop (i + 1 + s * cols) →
      (drainColLoop cols (cols - 1) k (i + 1 + s * cols) (i + s * (cols - 1)) buf).length
          = rows * cols ∧
      (drainColLoop cols (cols - 1) k (i + 1 + s * cols) (i + s * (cols - 1)) buf).take
          (i + (rows - 1) * (cols - 1)) =
        removeColSpec cols i (rows - 1) data ++ (data.drop ((rows - 1) * cols)).take i ∧
      (drainColLoop cols (cols - 1) k (i + 1 + s * cols) (i + s * (cols - 1)) buf).drop
          (i + 1 + (rows - 1) * cols) = data.drop (i + 1 + (rows - 1) * cols) := by
  intro k
  induction k with
  | zero =>
    intro s buf hsk hblen htake hdrop
    have hs : s = rows - 1 := by omega
    subst hs
    exact ⟨hblen, htake, hdrop⟩
  | succ k ih =>
    intro s buf hsk hblen htake hdrop
    have hrows2 : s + 2 ≤ rows := by omega
    -- bounds for the copy
    have hb1 : (i + s * (cols - 1)) + (cols - 1) ≤ buf.length := by
      have : (s + 2) * (cols - 1) ≤ rows * (cols - 1) :=
        Nat.mul_le_mul_right _ hrows2
      have : rows * (cols - 1) ≤ rows * cols :=
        Nat.mul_le_mul_left _ (Nat.sub_le _ _)
      have h2 : (s + 2) * (cols - 1) ≤ rows * cols := by omega
      have h3 : i + s * (cols - 1) + (cols - 1) ≤ (s + 2) * (cols - 1) := by
        have : (s + 2) * (cols - 1) = s * (cols - 1) + (cols - 1) + (cols - 1) := by ring
        omega
      omega
    have hb2 : (i + 1 + s * cols) + (cols - 1) ≤ buf.length := by
      have h2 : (s + 2) * cols ≤ rows * cols := Nat.mul_le_mul_right _ hrows2
      have h3 : (s + 2) * cols = s * cols + cols + cols := by ring
      omega
    have hbd : i + s * (cols - 1) ≤ buf.length := by omega
    -- the copied segment, rewritten to the pristine suffix of data
    have hseg : (buf.drop (i + 1 + s * cols)).take (cols - 1) =
        (data.drop (i + 1 + s * cols)).take (cols - 1) := by rw [hdrop]
    -- unfold one loop step
    have hstep : drainColLoop cols (cols - 1) (k + 1) (i + 1 + s * cols)
          (i + s * (cols - 1)) buf =
        drainColLoop cols (cols - 1) k (i + 1 + (s + 1) * cols) (i + (s + 1) * (cols - 1))
          (ptrCopy buf (i + 1 + s * cols) (i + s * (cols - 1)) (cols - 1)) := by
      show drainColLoop cols (cols - 1) k ((i + 1 + s * cols) + cols)
          ((i + s * (cols - 1)) + (cols - 1))
          (ptrCopy buf (i + 1 + s * cols) (i + s * (cols - 1)) (cols - 1)) = _
      congr 1 <;> ring
    rw [hstep]
    have hblen' : (ptrCopy buf (i + 1 + s * cols) (i + s * (cols - 1)) (cols - 1)).length
        = rows * cols := by
      rw [ptrCopy_length _ _ _ _ (by omega) (by omega)]; exact hblen
    refine ih (s + 1) _ (by omega) hblen' ?_ ?_
    · -- take condition at s + 1
      rw [show i + (s + 1) * (cols - 1) = (i + s * (cols - 1)) + (cols - 1) from by ring]
      rw [ptrCopy_take_exact _ _ _ _ hbd (by omega)]
      rw [htake, hseg]
      rw [removeColSpec_snoc cols i s data]
      rw [List.append_assoc, List.append_assoc]
      congr 1
      rw [show data.drop (i + 1 + s * cols) = (data.drop (s * cols)).drop (i + 1) from by
        rw [List.drop_drop]; congr 1; omega]
      rw [show data.drop ((s + 1) * cols) = (data.drop (s * cols)).drop cols from by
        rw [List.drop_drop]; congr 1; ring]
      exact eraseIdx_chunk (data.drop (s * cols)) cols i hi
    · -- drop condition at s + 1
      rw [ptrCopy_drop_high _ _ _ _ _ (by omega) (by omega) ?hN]
      case hN =>
        have : (s + 1) * (cols - 1) ≤ (s + 1) * cols := Nat.mul_le_mul_left _ (Nat.sub_le _ _)
        have h3 : (s + 1) * (cols - 1) = s * (cols - 1) + (cols - 1) := by ring
        have h4 : (s + 1) * cols = s * cols + cols := by ring
        omega
      have hsplit : ∀ (l : List α), List.drop (i + 1 + (s + 1) * cols) l =
          List.drop cols (List.drop (i + 1 + s * cols) l) := by
        intro l; rw [List.drop_drop]; congr 1; ring
      rw [hsplit buf, hsplit data, hdrop]

/-- The final `ptr::copy` of `DrainCol::drop`: the pre-hole part of the
last row plus its post-hole tail form the last row with index `i`
erased. -/
theorem eraseIdx_chunk_last {α : Type} (X : List α) (cols i : Nat) (hi : i < cols) :
    X.take i ++ (X.drop (i + 1)).take (cols - i - 1) = (X.take cols).eraseIdx i := by
  rw [List.eraseIdx_eq_take_drop_succ, List.take_take, Nat.min_eq_left (by omega),
    List.drop_take, Nat.sub_sub]

/-- The surviving buffer described by the claim has exactly
`rows * (cols - 1)` elements. -/
theorem removeColSpec_length {α : Type} (cols i : Nat) (hi : i < cols) :
    ∀ (rows : Nat) (data : List α), data.length = rows * cols →
      (removeColSpec cols i rows data).length = rows * (cols - 1) := by
  intro rows
  induction rows with
  | zero => intro data _; simp [removeColSpec]
  | succ r ih =>
    intro data hlen
    have hdl : (data.drop cols).length = r * cols := by
      rw [List.length_drop, hlen]
      have : (r + 1) * cols = r * cols + cols := by ring
      omega
    show ((data.take cols).eraseIdx i ++ removeColSpec cols i r (data.drop cols)).length = _
    rw [List.length_append, ih (data.drop cols) hdl]
    rw [List.length_eraseIdx]
    have htl : (data.take cols).length = cols := by
      rw [List.length_take]
      have h1 : (r + 1) * cols = r * cols + cols := by ring
      omega
    rw [if_pos (by omega : i < (data.take cols).length), htl]
    have h2 : (r + 1) * (cols - 1) = r * (cols - 1) + (cols - 1) := by ring
    omega

/-- C1: on a well-formed grid with at least one row and `i < num_cols`
(so the `slice_len` subtraction cannot underflow), `remove_col(i)`
succeeds, and disposing of the returned `DrainCol` after ANY partial
consumption of its elements (any number taken from the front and from
the back - `dispose` ignores the counters, exactly as `DrainCol::drop`'s
compaction ignores the iterator state) leaves a grid whose `num_cols`
dropped by one (with `num_rows` zeroed when `num_cols` reaches zero),
whose buffer is exactly every row with the `i`-th element erased, in the
original row-major order, and whose buffer length equals the new
`num_cols * num_rows`. -/
theorem remove_col_drain_restores_grid {α : Type} (t : TooDee α) (i : Nat)
    (hwf : t.data.length = t.num_rows * t.num_cols) (hrows : 1 ≤ t.num_rows)
    (hi : i < t.num_cols) :
    t.remove_col i = some (DrainCol.mk 0 0 i t) ∧
    ∀ f b : Nat,
      ((DrainCol.mk f b i t).dispose).num_cols = t.num_cols - 1 ∧
      ((DrainCol.mk f b i t).dispose).num_rows =
        (if t.num_cols - 1 = 0 then 0 else t.num_rows) ∧
      ((DrainCol.mk f b i t).dispose).data =
        removeColSpec t.num_cols i t.num_rows t.data ∧
      ((DrainCol.mk f b i t).dispose).data.length =
        ((DrainCol.mk f b i t).dispose).num_cols * ((DrainCol.mk f b i t).dispose).num_rows := by
  obtain ⟨data, rows, cols⟩ := t
  simp only at hwf hrows hi ⊢
  constructor
  · show (if i < cols then if cols ≤ data.length then _ else none else none) = _
    rw [if_pos hi, if_pos]
    rw [hwf]
    calc cols = 1 * cols := by ring
      _ ≤ rows * cols := Nat.mul_le_mul_right _ hrows
  intro f b
  have hdisp : (DrainCol.mk f b i (TooDee.mk data rows cols)).dispose =
      TooDee.mk
        ((ptrCopy (drainColLoop cols (cols - 1) (rows - 1) (i + 1) i data)
            (i + 1 + (rows - 1) * cols) (i + (rows - 1) * (cols - 1))
            (cols - i - 1)).take
          ((cols - 1) * (if cols - 1 = 0 then 0 else rows)))
        (if cols - 1 = 0 then 0 else rows) (cols - 1) := rfl
  rw [hdisp]
  refine ⟨rfl, rfl, ?_⟩
  have hdata : ((ptrCopy (drainColLoop cols (cols - 1) (rows - 1) (i + 1) i data)
        (i + 1 + (rows - 1) * cols) (i + (rows - 1) * (cols - 1))
        (cols - i - 1)).take
      ((cols - 1) * (if cols - 1 = 0 then 0 else rows))) =
      removeColSpec cols i rows data := by
    rcases Nat.eq_zero_or_pos rows with hr0 | hrpos
    · -- empty grid: everything collapses to the empty list
      subst hr0
      have hnil : data = [] := List.length_eq_zero.mp (by omega)
      subst hnil
      show (ptrCopy (drainColLoop cols (cols - 1) 0 (i + 1) i []) _ _ _).take _ = _
      show (ptrCopy ([] : List α) _ _ _).take _ = _
      simp [ptrCopy, removeColSpec]
    · -- at least one row: run the loop invariant, then the final tail copy
      have hL := drainColLoop_spec cols i rows data hi (rows - 1) 0 data (by omega) hwf
        (by simp [removeColSpec]) (by simp)
      simp only [Nat.zero_mul, Nat.add_zero] at hL
      obtain ⟨hL1len, hL1take, hL1drop⟩ := hL
      have hcc : (cols - 1) * rows ≤ rows * cols := by
        calc (cols - 1) * rows = rows * (cols - 1) := by ring
          _ ≤ rows * cols := Nat.mul_le_mul_left _ (by omega)
      have hdest : i + (rows - 1) * (cols - 1) ≤ rows * cols := by
        have h1 : i + (rows - 1) * (cols - 1) ≤ (cols - 1) + (rows - 1) * (cols - 1) := by omega
        have h2 : (cols - 1) + (rows - 1) * (cols - 1) = rows * (cols - 1) := by
          conv_rhs => rw [show rows = (rows - 1) + 1 from by omega]
          ring
        have h3 : rows * (cols - 1) ≤ rows * cols := Nat.mul_le_mul_left _ (by omega)
        omega
      have hsrc : (i + 1 + (rows - 1) * cols) + (cols - i - 1) ≤ rows * cols := by
        have h2 : (rows - 1) * cols + cols = rows * cols := by
          conv_rhs => rw [show rows = (rows - 1) + 1 from by omega]
          ring
        omega
      rcases Nat.eq_zero_or_pos (cols - 1) with hc1 | hc2
      · -- a single column is being removed: the surviving grid is empty
        have hc : cols = 1 := by omega
        have hiz : i = 0 := by omega
        subst hc; subst hiz
        rw [hc1]
        simp [removeColSpec_of_cols_one]
      · rw [if_neg (by omega)]
        rw [show (cols - 1) * rows = (i + (rows - 1) * (cols - 1)) + (cols - i - 1) from by
          have h2 : (cols - 1) + (rows - 1) * (cols - 1) = rows * (cols - 1) := by
            conv_rhs => rw [show rows = (rows - 1) + 1 from by omega]
            ring
          have h3 : (cols - 1) * rows = rows * (cols - 1) := by ring
          omega]
        rw [ptrCopy_take_exact _ _ _ _ (by omega) (by omega)]
        rw [hL1take, hL1drop]
        rw [show rows = (rows - 1) + 1 from by omega]
        rw [removeColSpec_snoc cols i (rows - 1) data]
        rw [show (rows - 1) + 1 - 1 = rows - 1 from by omega]
        rw [List.append_assoc]
        congr 1
        rw [show data.drop (i + 1 + (rows - 1) * cols) =
            (data.drop ((rows - 1) * cols)).drop (i + 1) from by
          rw [List.drop_drop]; congr 1; omega]
        exact eraseIdx_chunk_last (data.drop ((rows - 1) * cols)) cols i hi
  refine ⟨hdata, ?_⟩
  show _ = (cols - 1) * _
  rw [hdata, removeColSpec_length cols i hi rows data hwf]
  rcases Nat.eq_zero_or_pos (cols - 1) with hc1 | hc2
  · rw [hc1]; simp [hc1]
  · rw [if_neg (by omega)]; ring

/-- Witness for `remove_col_drain_restores_grid`: removing column 1 of
the 2-row, 3-column grid `[0,1,2; 3,4,5]`, with arbitrary consumption
counters, leaves the buffer `[0,2,3,5]`. -/
theorem remove_col_drain_witness :
    (TooDee.mk [0, 1, 2, 3, 4, 5] 2 3).remove_col 1 =
      some (DrainCol.mk 0 0 1 (TooDee.mk [0, 1, 2, 3, 4, 5] 2 3)) ∧
    ((DrainCol.mk 5 9 1 (TooDee.mk [0, 1, 2, 3, 4, 5] 2 3)).dispose).data = [0, 2, 3, 5] := by
  obtain ⟨h1, h2⟩ := remove_col_drain_restores_grid
    (TooDee.mk [0, 1, 2, 3, 4, 5] 2 3) 1 (by decide) (by decide) (by decide)
  refine ⟨h1, ?_⟩
  rw [(h2 5 9).2.2.1]
  rfl
